import Mathlib

/-!
# Verification of the D8 stormwater flow pipeline

Shallow embedding of the flow-routing core of the repository
(`scripts/process_dem_flow.py` and `archive/process_dem_flow.py`):

* `calculate_flow_direction_d8` — D8 steepest-descent direction assignment;
* `calculate_flow_accumulation` — iterative accumulation propagation with the
  runaway guard, iteration cap, convergence test and final clamp
  (the archive variant, which is the one the claims cite);
* `extract_flow_vectors` — flow-vector extraction;
* `sample_evenly` — even index sampling (`np.linspace(..., dtype=int)`);
* the coordinate normalization performed inline in `main`.

Modelling conventions: IEEE-754 doubles are idealized as exact rationals `ℚ`
(all accumulation values arising here are small integers, where double
arithmetic is exact); `NaN` elevation samples are `Option.none`; a 2-D numpy
array is a total function `ℕ → ℕ → α` together with explicit `rows`/`cols`
bounds (cells outside the bounds are never touched by the loops).  The float
comparison `slope > max_slope`, whose mathematical value involves `√2`, is
embedded as the decidable test `sgtB`, proved equivalent to the real-number
comparison in `sgtB_iff`.  Python `print` diagnostics of the accumulation
loop (convergence / warning) are modelled as returned values.
-/

/-- D8 neighbor offsets `(row offset, col offset, direction code)` in the
source's fixed enumeration order NE, E, SE, S, SW, W, NW, N
(the `neighbors` list of `calculate_flow_direction_d8`). -/
def neighborList : List (ℤ × ℤ × ℕ) :=
  [(-1, 1, 128), (0, 1, 1), (1, 1, 2), (1, 0, 4),
   (1, -1, 8), (0, -1, 16), (-1, -1, 32), (-1, 0, 64)]

/-- Squared Euclidean distance `dr**2 + dc**2` of a neighbor offset
(1 for orthogonal neighbors, 2 for diagonal ones). -/
def wNat (nb : ℤ × ℤ × ℕ) : ℕ := (nb.1 * nb.1 + nb.2.1 * nb.2.1).toNat

/-- Decidable embedding of the float comparison
`d1 / sqrt w1 > d2 / sqrt w2` (slopes against the running maximum).
Equivalence with the real-number comparison is `sgtB_iff`. -/
def sgtB (d1 : ℚ) (w1 : ℕ) (d2 : ℚ) (w2 : ℕ) : Bool :=
  if 0 ≤ d1 then
    if d2 < 0 then true
    else decide (d2 ^ 2 * w1 < d1 ^ 2 * w2)
  else
    if 0 ≤ d2 then false
    else decide (d1 ^ 2 * w2 < d2 ^ 2 * w1)

/-- Comparison of a candidate slope against the running maximum, where
`none` is the `-np.inf` sentinel (any candidate beats it). -/
def sgtOpt (d : ℚ) (w : ℕ) (best : Option (ℚ × ℕ)) : Bool :=
  match best with
  | none => true
  | some bw => sgtB d w bw.1 bw.2

/-- One step of the inner neighbor loop of `calculate_flow_direction_d8`:
state is `(max_slope as (numerator, squared distance), flow_direction)`,
`none` standing for the `-np.inf` initial value. -/
def d8Step (rows cols : ℕ) (dem : ℕ → ℕ → Option ℚ) (i j : ℕ) (c : ℚ)
    (st : Option (ℚ × ℕ) × ℕ) (nb : ℤ × ℤ × ℕ) : Option (ℚ × ℕ) × ℕ :=
  let ni : ℤ := (i : ℤ) + nb.1
  let nj : ℤ := (j : ℤ) + nb.2.1
  if 0 ≤ ni ∧ ni < (rows : ℤ) ∧ 0 ≤ nj ∧ nj < (cols : ℤ) then
    match dem ni.toNat nj.toNat with
    | none => st
    | some nv =>
      if sgtOpt (c - nv) (wNat nb) st.1 then (some (c - nv, wNat nb), nb.2.2)
      else st
  else st

/-- The full neighbor loop for one interior cell with elevation `c`. -/
def d8Cell (rows cols : ℕ) (dem : ℕ → ℕ → Option ℚ) (i j : ℕ) (c : ℚ) : ℕ :=
  (neighborList.foldl (d8Step rows cols dem i j c) (none, 0)).2

/-- `calculate_flow_direction_d8`.  The per-cell double loop writes each
interior cell independently of every other cell (the output raster starts as
zeros and is only read back after the loops), so it is embedded pointwise:
cell `(i, j)` holds the inner-loop result when `1 ≤ i < rows-1`,
`1 ≤ j < cols-1` and the cell's own elevation is not NaN, and 0 otherwise. -/
def calculate_flow_direction_d8 (rows cols : ℕ) (dem : ℕ → ℕ → Option ℚ) :
    ℕ → ℕ → ℕ := fun i j =>
  if 1 ≤ i ∧ i < rows - 1 ∧ 1 ≤ j ∧ j < cols - 1 then
    match dem i j with
    | none => 0
    | some c => d8Cell rows cols dem i j c
  else 0

/-- The `dir_to_offset` dictionary shared by `calculate_flow_accumulation`
and `extract_flow_vectors`; `none` models a failed `in dir_to_offset` test. -/
def dirToOffset (code : ℕ) : Option (ℤ × ℤ) :=
  if code = 128 then some (-1, 1)
  else if code = 1 then some (0, 1)
  else if code = 2 then some (1, 1)
  else if code = 4 then some (1, 0)
  else if code = 8 then some (1, -1)
  else if code = 16 then some (0, -1)
  else if code = 32 then some (-1, -1)
  else if code = 64 then some (-1, 0)
  else none

/-- Row-major enumeration of all grid cells, the iteration order of
`for i in range(rows): for j in range(cols)`. -/
def cellList (rows cols : ℕ) : List (ℕ × ℕ) :=
  (List.range rows).flatMap fun i => (List.range cols).map fun j => (i, j)

/-- Pointwise update of a 2-D array modelled as a function (`arr[i, j] = v`). -/
def upd2 {α : Type} (f : ℕ → ℕ → α) (i j : ℕ) (v : α) : ℕ → ℕ → α :=
  fun p q => if p = i ∧ q = j then v else f p q

/-- State of `calculate_flow_accumulation` (archive variant): the `flow_acc`
array, the `processed` bool array, and the per-pass `changed` flag. -/
structure AccState where
  acc : ℕ → ℕ → ℚ
  processed : ℕ → ℕ → Bool
  changed : Bool

/-- Body of the inner double loop of `calculate_flow_accumulation` for one
cell `(i, j)`: skip sinks and settled cells, look the direction code up in
`dir_to_offset`, bounds-check the downstream cell, apply the runaway guard
(downstream value above `1e6` marks the source as processed), otherwise add
the source's accumulation into the downstream cell and record whether the
destination moved by more than `0.1`. -/
def accCellStep (rows cols : ℕ) (fd : ℕ → ℕ → ℕ) (s : AccState)
    (ij : ℕ × ℕ) : AccState :=
  if fd ij.1 ij.2 = 0 ∨ s.processed ij.1 ij.2 then s
  else
    match dirToOffset (fd ij.1 ij.2) with
    | none => s
    | some dd =>
      let ni : ℤ := (ij.1 : ℤ) + dd.1
      let nj : ℤ := (ij.2 : ℤ) + dd.2
      if 0 ≤ ni ∧ ni < (rows : ℤ) ∧ 0 ≤ nj ∧ nj < (cols : ℤ) then
        if s.acc ni.toNat nj.toNat > 1000000 then
          { s with processed := upd2 s.processed ij.1 ij.2 true }
        else
          let old := s.acc ni.toNat nj.toNat
          let nv := old + s.acc ij.1 ij.2
          { s with
              acc := upd2 s.acc ni.toNat nj.toNat nv,
              changed := s.changed || decide ((1 : ℚ)/10 < |nv - old|) }
      else s

/-- One full-grid pass: reset `changed`, then sweep all cells row-major. -/
def accPass (rows cols : ℕ) (fd : ℕ → ℕ → ℕ) (s : AccState) : AccState :=
  (cellList rows cols).foldl (accCellStep rows cols fd) { s with changed := false }

/-- The iteration loop of `calculate_flow_accumulation`, by remaining fuel
(called with fuel 50 = `max_iterations`).  Returns the final state, the
number of passes performed, and whether the non-convergence warning was
printed (fuel 1 with `changed` still set is `iteration == max_iterations-1`). -/
def accLoop (rows cols : ℕ) (fd : ℕ → ℕ → ℕ) : ℕ → AccState → AccState × ℕ × Bool
  | 0, s => (s, 0, false)
  | n + 1, s =>
    let s' := accPass rows cols fd s
    if s'.changed then
      if n = 0 then (s', 1, true)
      else
        let r := accLoop rows cols fd n s'
        (r.1, r.2.1 + 1, r.2.2)
    else (s', 1, false)

/-- Initial state: `flow_acc = np.ones(...)`, nothing processed. -/
def accInit : AccState := ⟨fun _ _ => 1, fun _ _ => false, false⟩

/-- The raw result of the 50-pass loop, before the final clamp. -/
def accRaw (rows cols : ℕ) (fd : ℕ → ℕ → ℕ) : AccState × ℕ × Bool :=
  accLoop rows cols fd 50 accInit

/-- `calculate_flow_accumulation` (archive variant): run up to 50 relaxation
passes from the all-ones field, then `np.clip(flow_acc, 0, 1e6)`.  Returns
the clamped field together with the pass count and the warning flag (the
convergence diagnostics the Python code prints). -/
def calculate_flow_accumulation (rows cols : ℕ) (fd : ℕ → ℕ → ℕ) :
    (ℕ → ℕ → ℚ) × ℕ × Bool :=
  let r := accRaw rows cols fd
  (fun i j => min (max (r.1.acc i j) 0) 1000000, r.2.1, r.2.2)

/-- The 6-coefficient affine transform of the raster
(`transform.a` … `transform.f`). -/
structure Affine where
  a : ℚ
  b : ℚ
  c : ℚ
  d : ℚ
  e : ℚ
  f : ℚ
deriving DecidableEq

/-- `rasterio.transform.xy(transform, i, j)` with the default
`offset='center'`: the projected coordinates of the center of the pixel in
row `i`, column `j`. -/
def rio_xy (t : Affine) (i j : ℕ) : ℚ × ℚ :=
  (t.a * ((j : ℚ) + 1/2) + t.b * ((i : ℚ) + 1/2) + t.c,
   t.d * ((j : ℚ) + 1/2) + t.e * ((i : ℚ) + 1/2) + t.f)

/-- One emitted flow line (the dict appended to `flow_lines`). -/
structure FlowVector where
  fromX : ℚ
  fromY : ℚ
  toX : ℚ
  toY : ℚ
  accumulation : ℚ
  direction : ℕ
deriving DecidableEq

/-- Body of the double loop of `extract_flow_vectors` for one cell. -/
def extractCellStep (rows cols : ℕ) (fd : ℕ → ℕ → ℕ) (fa : ℕ → ℕ → ℚ)
    (t : Affine) (threshold : ℚ) (out : List FlowVector) (ij : ℕ × ℕ) :
    List FlowVector :=
  if fd ij.1 ij.2 = 0 ∨ fa ij.1 ij.2 < threshold then out
  else
    match dirToOffset (fd ij.1 ij.2) with
    | none => out
    | some dd =>
      let ni : ℤ := (ij.1 : ℤ) + dd.1
      let nj : ℤ := (ij.2 : ℤ) + dd.2
      if 0 ≤ ni ∧ ni < (rows : ℤ) ∧ 0 ≤ nj ∧ nj < (cols : ℤ) then
        let xy := rio_xy t ij.1 ij.2
        let nxy := rio_xy t ni.toNat nj.toNat
        out ++ [⟨xy.1, xy.2, nxy.1, nxy.2, fa ij.1 ij.2, fd ij.1 ij.2⟩]
      else out

/-- `extract_flow_vectors` (the unused `dem_shape` parameter is dropped):
one pass over all cells appending a vector for each cell that passes the
direction / threshold / table / bounds tests. -/
def extract_flow_vectors (rows cols : ℕ) (fd : ℕ → ℕ → ℕ) (fa : ℕ → ℕ → ℚ)
    (t : Affine) (threshold : ℚ) : List FlowVector :=
  (cellList rows cols).foldl (extractCellStep rows cols fd fa t threshold) []

/-- The raster bounding box (`bounds.left/bottom/right/top` in `main`). -/
structure Bounds where
  minx : ℚ
  miny : ℚ
  maxx : ℚ
  maxy : ℚ
deriving DecidableEq

/-- The x-normalization performed inline in `main`:
`(x - minx) / width` with `width = maxx - minx`, computed unconditionally --
the code contains no guard for a degenerate (zero-width) box.  In the
rational model division by zero yields the junk value 0; in Python it raises
`ZeroDivisionError` (or propagates inf/NaN for numpy scalars). -/
def norm_x (b : Bounds) (x : ℚ) : ℚ := (x - b.minx) / (b.maxx - b.minx)

/-- The y-normalization performed inline in `main`:
`1 - (y - miny) / height` (vertical flip), again with no degeneracy guard. -/
def norm_y (b : Bounds) (y : ℚ) : ℚ := 1 - (y - b.miny) / (b.maxy - b.miny)

/-- `np.linspace(0, stop, num, dtype=int)` for natural `stop`: `num` evenly
spaced reals from 0 to `stop` inclusive, truncated (floored) to integers.
`Nat` division is exactly that floor. -/
def linspaceInt (stop : ℕ) (num : ℕ) : List ℕ :=
  if num = 0 then []
  else if num = 1 then [0]
  else (List.range num).map fun t => t * stop / (num - 1)

/-- `sample_evenly`: keep short lists unchanged, otherwise take the items at
`np.linspace(0, len(items)-1, max_count, dtype=int)`. -/
def sample_evenly {α : Type} (items : List α) (max_count : ℕ) : List α :=
  if items.length ≤ max_count then items
  else (linspaceInt (items.length - 1) max_count).filterMap fun idx => items.get? idx

/-- Modelled from the spec: the Even Sampler as the spec words it, with the
fractional indices ROUNDED TO NEAREST integer instead of truncated
(`round(x) = floor(x + 1/2)`, i.e. `(2*t*stop + num-1) / (2*(num-1))`).
Used only to compare the spec's wording against `sample_evenly`. -/
def sample_evenly_nearest {α : Type} (items : List α) (max_count : ℕ) : List α :=
  if items.length ≤ max_count then items
  else
    (List.range max_count).filterMap fun t =>
      items.get? ((2 * (t * (items.length - 1)) + (max_count - 1)) / (2 * (max_count - 1)))

/-! ## Invariants of the accumulation sweep -/

/-- Every accumulation value is at least 1 (cells start at `1.0` and only
ever receive nonnegative additions). -/
def InvA (s : AccState) : Prop := ∀ i j, 1 ≤ s.acc i j

theorem accCellStep_acc_mono {rows cols : ℕ} {fd : ℕ → ℕ → ℕ} {s : AccState}
    (hs : InvA s) (ij : ℕ × ℕ) (p q : ℕ) :
    s.acc p q ≤ (accCellStep rows cols fd s ij).acc p q := by
  unfold accCellStep
  dsimp only
  split
  · exact le_rfl
  split
  · exact le_rfl
  split
  · split
    · exact le_rfl
    · show s.acc p q ≤ upd2 s.acc _ _ _ p q
      unfold upd2
      split
      · next h =>
        obtain ⟨hp, hq⟩ := h
        subst hp; subst hq
        have h1 := hs ij.1 ij.2
        linarith
      · exact le_rfl
  · exact le_rfl

theorem accCellStep_inv {rows cols : ℕ} {fd : ℕ → ℕ → ℕ} {s : AccState}
    (hs : InvA s) (ij : ℕ × ℕ) : InvA (accCellStep rows cols fd s ij) :=
  fun p q => le_trans (hs p q) (accCellStep_acc_mono hs ij p q)

theorem accCellStep_processed_mono {rows cols : ℕ} {fd : ℕ → ℕ → ℕ}
    {s : AccState} {p q : ℕ} (h : s.processed p q = true) (ij : ℕ × ℕ) :
    (accCellStep rows cols fd s ij).processed p q = true := by
  unfold accCellStep
  dsimp only
  split
  · exact h
  split
  · exact h
  split
  · split
    · show upd2 s.processed _ _ true p q = true
      unfold upd2
      split
      · rfl
      · exact h
    · exact h
  · exact h

theorem accCellStep_changed_mono {rows cols : ℕ} {fd : ℕ → ℕ → ℕ}
    {s : AccState} (h : s.changed = true) (ij : ℕ × ℕ) :
    (accCellStep rows cols fd s ij).changed = true := by
  unfold accCellStep
  dsimp only
  split
  · exact h
  split
  · exact h
  split
  · split
    · exact h
    · show (s.changed || _) = true
      rw [h, Bool.true_or]
  · exact h

theorem accFold_inv {rows cols : ℕ} {fd : ℕ → ℕ → ℕ} :
    ∀ (l : List (ℕ × ℕ)) (s : AccState), InvA s →
      InvA (l.foldl (accCellStep rows cols fd) s)
  | [], _, hs => hs
  | ij :: l, s, hs => accFold_inv l _ (accCellStep_inv hs ij)

theorem accFold_acc_mono {rows cols : ℕ} {fd : ℕ → ℕ → ℕ} :
    ∀ (l : List (ℕ × ℕ)) (s : AccState), InvA s → ∀ p q : ℕ,
      s.acc p q ≤ (l.foldl (accCellStep rows cols fd) s).acc p q
  | [], _, _, _, _ => le_rfl
  | ij :: l, s, hs, p, q =>
    le_trans (accCellStep_acc_mono hs ij p q)
      (accFold_acc_mono l _ (accCellStep_inv hs ij) p q)

theorem accFold_processed_mono {rows cols : ℕ} {fd : ℕ → ℕ → ℕ} {p q : ℕ} :
    ∀ (l : List (ℕ × ℕ)) (s : AccState), s.processed p q = true →
      (l.foldl (accCellStep rows cols fd) s).processed p q = true
  | [], _, hs => hs
  | ij :: l, s, hs => accFold_processed_mono l _ (accCellStep_processed_mono hs ij)

theorem accFold_changed_mono {rows cols : ℕ} {fd : ℕ → ℕ → ℕ} :
    ∀ (l : List (ℕ × ℕ)) (s : AccState), s.changed = true →
      (l.foldl (accCellStep rows cols fd) s).changed = true
  | [], _, hs => hs
  | ij :: l, s, hs => accFold_changed_mono l _ (accCellStep_changed_mono hs ij)

theorem accPass_inv {rows cols : ℕ} {fd : ℕ → ℕ → ℕ} {s : AccState}
    (hs : InvA s) : InvA (accPass rows cols fd s) :=
  accFold_inv _ _ (fun p q => hs p q)

theorem accPass_acc_mono {rows cols : ℕ} {fd : ℕ → ℕ → ℕ} {s : AccState}
    (hs : InvA s) (p q : ℕ) : s.acc p q ≤ (accPass rows cols fd s).acc p q :=
  accFold_acc_mono _ { s with changed := false } (fun p q => hs p q) p q

theorem accPass_processed_mono {rows cols : ℕ} {fd : ℕ → ℕ → ℕ} {s : AccState}
    {p q : ℕ} (h : s.processed p q = true) :
    (accPass rows cols fd s).processed p q = true :=
  accFold_processed_mono _ { s with changed := false } h

theorem accLoop_succ_eq {rows cols : ℕ} {fd : ℕ → ℕ → ℕ} (n : ℕ)
    (s : AccState) :
    accLoop rows cols fd (n + 1) s =
      if (accPass rows cols fd s).changed then
        if n = 0 then (accPass rows cols fd s, 1, true)
        else
          ((accLoop rows cols fd n (accPass rows cols fd s)).1,
           (accLoop rows cols fd n (accPass rows cols fd s)).2.1 + 1,
           (accLoop rows cols fd n (accPass rows cols fd s)).2.2)
      else (accPass rows cols fd s, 1, false) := by
  rfl

theorem accLoop_inv {rows cols : ℕ} {fd : ℕ → ℕ → ℕ} :
    ∀ (n : ℕ) (s : AccState), InvA s → InvA (accLoop rows cols fd n s).1
  | 0, _, hs => hs
  | n + 1, s, hs => by
    rw [accLoop_succ_eq]
    by_cases hc : (accPass rows cols fd s).changed = true
    · rw [if_pos hc]
      by_cases hn : n = 0
      · rw [if_pos hn]
        exact accPass_inv hs
      · rw [if_neg hn]
        exact accLoop_inv n _ (accPass_inv hs)
    · rw [if_neg hc]
      exact accPass_inv hs

theorem accLoop_processed_mono {rows cols : ℕ} {fd : ℕ → ℕ → ℕ} {p q : ℕ} :
    ∀ (n : ℕ) (s : AccState), s.processed p q = true →
      ((accLoop rows cols fd n s).1).processed p q = true
  | 0, _, hs => hs
  | n + 1, s, hs => by
    rw [accLoop_succ_eq]
    by_cases hc : (accPass rows cols fd s).changed = true
    · rw [if_pos hc]
      by_cases hn : n = 0
      · rw [if_pos hn]
        exact accPass_processed_mono hs
      · rw [if_neg hn]
        exact accLoop_processed_mono n _ (accPass_processed_mono hs)
    · rw [if_neg hc]
      exact accPass_processed_mono hs

/-! ## Membership and splitting of the row-major cell enumeration -/

theorem mem_cellList {rows cols : ℕ} (p : ℕ × ℕ) :
    p ∈ cellList rows cols ↔ p.1 < rows ∧ p.2 < cols := by
  obtain ⟨i, j⟩ := p
  simp only [cellList, List.mem_flatMap, List.mem_map, List.mem_range]
  constructor
  · rintro ⟨a, ha, b, hb, hab⟩
    obtain ⟨rfl, rfl⟩ := Prod.mk.injEq .. ▸ hab
    exact ⟨ha, hb⟩
  · rintro ⟨hi, hj⟩
    exact ⟨i, hi, j, hj, rfl⟩

theorem two_mem_split {α : Type} {l : List α} {a b : α} (ha : a ∈ l)
    (hb : b ∈ l) (hne : a ≠ b) :
    ∃ l₁ x l₂ y l₃, l = l₁ ++ x :: (l₂ ++ y :: l₃) ∧
      ((x = a ∧ y = b) ∨ (x = b ∧ y = a)) := by
  obtain ⟨s, t, rfl⟩ := List.append_of_mem ha
  rcases List.mem_append.mp hb with hbs | hbt
  · obtain ⟨u, v, rfl⟩ := List.append_of_mem hbs
    exact ⟨u, b, v, a, t, by simp, Or.inr ⟨rfl, rfl⟩⟩
  · rcases List.mem_cons.mp hbt with hba | hbt'
    · exact absurd hba.symm hne
    · obtain ⟨u, v, rfl⟩ := List.append_of_mem hbt'
      exact ⟨s, a, u, b, v, by simp, Or.inl ⟨rfl, rfl⟩⟩

/-! ## The runaway guard on a two-cell mutual-drainage cycle -/

/-- Cell `(i, j)` routes into cell `(p, q)`: its direction code is in
`dir_to_offset` and the offset from `(i, j)` lands on `(p, q)`. -/
def routesTo (fd : ℕ → ℕ → ℕ) (i j p q : ℕ) : Prop :=
  ∃ dd : ℤ × ℤ, dirToOffset (fd i j) = some dd ∧
    (i : ℤ) + dd.1 = (p : ℤ) ∧ (j : ℤ) + dd.2 = (q : ℤ)

/-- The runaway guard has fired on one of the two cells: the propagator has
marked it processed and skips it from then on. -/
def guardFired (ai aj bi bj : ℕ) (s : AccState) : Prop :=
  s.processed ai aj = true ∨ s.processed bi bj = true

/-- What a sweep does when it reaches an unguarded routing cell `(xi, xj)`
whose downstream cell `(yi, yj)` is in bounds: if the cell does not end up
marked processed, then the guard did not fire, so the downstream value was
at most `1e6` and received the source's full value, and the pass is marked
changed. -/
theorem accCellStep_router {rows cols : ℕ} {fd : ℕ → ℕ → ℕ} {s : AccState}
    {xi xj yi yj : ℕ} (hs : InvA s) (hroute : routesTo fd xi xj yi yj)
    (hyi : yi < rows) (hyj : yj < cols)
    (hnp : (accCellStep rows cols fd s (xi, xj)).processed xi xj = false) :
    (accCellStep rows cols fd s (xi, xj)).acc yi yj
        = s.acc yi yj + s.acc xi xj
    ∧ s.acc yi yj ≤ 1000000
    ∧ (accCellStep rows cols fd s (xi, xj)).changed = true := by
  obtain ⟨dd, hdd, hni, hnj⟩ := hroute
  have hfd0 : fd xi xj ≠ 0 := by
    intro h0
    rw [h0] at hdd
    simp [dirToOffset] at hdd
  have hproc : s.processed xi xj = false := by
    by_contra hp
    have hp' : s.processed xi xj = true := by
      cases h : s.processed xi xj
      · exact absurd h hp
      · rfl
    have hstep : accCellStep rows cols fd s (xi, xj) = s := by
      unfold accCellStep
      dsimp only
      rw [if_pos (Or.inr hp')]
    rw [hstep] at hnp
    rw [hp'] at hnp
    exact Bool.noConfusion hnp
  have hcond : ¬(fd xi xj = 0 ∨ s.processed xi xj = true) := by
    rw [hproc]
    simp [hfd0]
  have hb : 0 ≤ (xi : ℤ) + dd.1 ∧ (xi : ℤ) + dd.1 < (rows : ℤ) ∧
      0 ≤ (xj : ℤ) + dd.2 ∧ (xj : ℤ) + dd.2 < (cols : ℤ) := by
    rw [hni, hnj]
    exact ⟨Int.natCast_nonneg _, by exact_mod_cast hyi,
      Int.natCast_nonneg _, by exact_mod_cast hyj⟩
  have htn1 : ((xi : ℤ) + dd.1).toNat = yi := by
    rw [hni]
    exact Int.toNat_natCast yi
  have htn2 : ((xj : ℤ) + dd.2).toNat = yj := by
    rw [hnj]
    exact Int.toNat_natCast yj
  by_cases hg : s.acc yi yj > 1000000
  · exfalso
    have hstep : accCellStep rows cols fd s (xi, xj) =
        { s with processed := upd2 s.processed xi xj true } := by
      unfold accCellStep
      dsimp only
      rw [if_neg hcond, hdd]
      dsimp only
      rw [htn1, htn2, if_pos hb, if_pos hg]
    rw [hstep] at hnp
    simp [upd2] at hnp
  · have hstep : accCellStep rows cols fd s (xi, xj) =
        { s with
            acc := upd2 s.acc yi yj (s.acc yi yj + s.acc xi xj),
            changed := s.changed ||
              decide ((1 : ℚ)/10 < |s.acc yi yj + s.acc xi xj - s.acc yi yj|) } := by
      unfold accCellStep
      dsimp only
      rw [if_neg hcond, hdd]
      dsimp only
      rw [htn1, htn2, if_pos hb, if_neg hg]
    rw [hstep]
    refine ⟨by simp [upd2], le_of_not_lt hg, ?_⟩
    have h1 : (1 : ℚ) ≤ s.acc xi xj := hs xi xj
    have h2 : (10 : ℚ)⁻¹ < |s.acc xi xj| := by
      rw [abs_of_nonneg (by linarith)]
      linarith
    simp [h2]

/-- A full pass over a grid whose cell enumeration contains the routing cell
`(xi, xj)` strictly before its mutual partner `(yi, yj)`: if the guard fires
on neither cell during the pass, the pass is marked changed, the earlier
visit saw a downstream value of at most `1e6`, and both cells end the pass
holding at least the sum of their two starting values. -/
theorem accPass_cycle_core {rows cols : ℕ} {fd : ℕ → ℕ → ℕ} {xi xj yi yj : ℕ}
    {s : AccState} {l₁ l₂ l₃ : List (ℕ × ℕ)}
    (hdec : cellList rows cols = l₁ ++ (xi, xj) :: (l₂ ++ (yi, yj) :: l₃))
    (hs : InvA s)
    (hrx : routesTo fd xi xj yi yj) (hry : routesTo fd yi yj xi xj)
    (hxb : xi < rows ∧ xj < cols) (hyb : yi < rows ∧ yj < cols)
    (hnx : (accPass rows cols fd s).processed xi xj = false)
    (hny : (accPass rows cols fd s).processed yi yj = false) :
    (accPass rows cols fd s).changed = true
    ∧ s.acc yi yj ≤ 1000000
    ∧ s.acc xi xj + s.acc yi yj ≤ (accPass rows cols fd s).acc xi xj
    ∧ s.acc xi xj + s.acc yi yj ≤ (accPass rows cols fd s).acc yi yj := by
  have hpass : accPass rows cols fd s =
      List.foldl (accCellStep rows cols fd)
        (accCellStep rows cols fd
          (List.foldl (accCellStep rows cols fd)
            (accCellStep rows cols fd
              (List.foldl (accCellStep rows cols fd)
                { s with changed := false } l₁) (xi, xj)) l₂) (yi, yj)) l₃ := by
    unfold accPass
    rw [hdec]
    simp only [List.foldl_append, List.foldl_cons]
  set s1 : AccState :=
    List.foldl (accCellStep rows cols fd) { s with changed := false } l₁ with hs1
  set s2 : AccState := accCellStep rows cols fd s1 (xi, xj) with hs2
  set s3 : AccState := List.foldl (accCellStep rows cols fd) s2 l₂ with hs3
  set s4 : AccState := accCellStep rows cols fd s3 (yi, yj) with hs4
  set s5 : AccState := List.foldl (accCellStep rows cols fd) s4 l₃ with hs5
  rw [hpass] at hnx hny ⊢
  have inv1 : InvA s1 := accFold_inv _ _ hs
  have inv2 : InvA s2 := accCellStep_inv inv1 _
  have inv3 : InvA s3 := accFold_inv _ _ inv2
  have inv4 : InvA s4 := accCellStep_inv inv3 _
  have h2x : s2.processed xi xj = false := by
    cases h : s2.processed xi xj
    · rfl
    · have h3 : s3.processed xi xj = true := accFold_processed_mono _ _ h
      have h4 : s4.processed xi xj = true := accCellStep_processed_mono h3 _
      have h5 : s5.processed xi xj = true := accFold_processed_mono _ _ h4
      rw [hnx] at h5
      exact h5.symm
  have h4y : s4.processed yi yj = false := by
    cases h : s4.processed yi yj
    · rfl
    · have h5 : s5.processed yi yj = true := accFold_processed_mono _ _ h
      rw [hny] at h5
      exact h5.symm
  obtain ⟨r1acc, r1le, r1ch⟩ := accCellStep_router inv1 hrx hyb.1 hyb.2 h2x
  obtain ⟨r2acc, r2le, r2ch⟩ := accCellStep_router inv3 hry hxb.1 hxb.2 h4y
  have m0x : s.acc xi xj ≤ s1.acc xi xj :=
    accFold_acc_mono l₁ { s with changed := false } hs xi xj
  have m0y : s.acc yi yj ≤ s1.acc yi yj :=
    accFold_acc_mono l₁ { s with changed := false } hs yi yj
  have m2y : s2.acc yi yj ≤ s3.acc yi yj := accFold_acc_mono l₂ s2 inv2 yi yj
  have m3y : s3.acc yi yj ≤ s4.acc yi yj :=
    accCellStep_acc_mono inv3 (yi, yj) yi yj
  have m4x : s4.acc xi xj ≤ s5.acc xi xj := accFold_acc_mono l₃ s4 inv4 xi xj
  have m4y : s4.acc yi yj ≤ s5.acc yi yj := accFold_acc_mono l₃ s4 inv4 yi yj
  have hx31 : (1 : ℚ) ≤ s3.acc xi xj := inv3 xi xj
  refine ⟨?_, ?_, ?_, ?_⟩
  · have c3 : s3.changed = true := accFold_changed_mono l₂ s2 r1ch
    have c4 : s4.changed = true := accCellStep_changed_mono c3 (yi, yj)
    exact accFold_changed_mono l₃ s4 c4
  · linarith
  · -- s5.acc xi xj ≥ s4.acc xi xj = s3.acc xi xj + s3.acc yi yj
    -- and s3.acc yi yj ≥ s2.acc yi yj = s1.acc yi yj + s1.acc xi xj
    linarith [r2acc, r1acc]
  · linarith [r1acc, m2y, m3y, m4y]

/-- One full pass over a grid containing a two-cell mutual-drainage cycle:
if the guard has fired on neither cell by the end of the pass, the pass is
marked changed, the smaller of the two values was at most `1e6` at the start
of the pass, and the smaller of the two values at least doubles. -/
theorem accPass_cycle {rows cols : ℕ} {fd : ℕ → ℕ → ℕ} {ai aj bi bj : ℕ}
    (hA : ai < rows ∧ aj < cols) (hB : bi < rows ∧ bj < cols)
    (hne : ((ai, aj) : ℕ × ℕ) ≠ (bi, bj))
    (hrAB : routesTo fd ai aj bi bj) (hrBA : routesTo fd bi bj ai aj)
    (s : AccState) (hs : InvA s)
    (hnf : ¬ guardFired ai aj bi bj (accPass rows cols fd s)) :
    (accPass rows cols fd s).changed = true
    ∧ min (s.acc ai aj) (s.acc bi bj) ≤ 1000000
    ∧ 2 * min (s.acc ai aj) (s.acc bi bj)
        ≤ min ((accPass rows cols fd s).acc ai aj)
            ((accPass rows cols fd s).acc bi bj) := by
  have hnA : (accPass rows cols fd s).processed ai aj = false := by
    cases h : (accPass rows cols fd s).processed ai aj
    · rfl
    · exact absurd (Or.inl h) hnf
  have hnB : (accPass rows cols fd s).processed bi bj = false := by
    cases h : (accPass rows cols fd s).processed bi bj
    · rfl
    · exact absurd (Or.inr h) hnf
  have hminA := min_le_left (s.acc ai aj) (s.acc bi bj)
  have hminB := min_le_right (s.acc ai aj) (s.acc bi bj)
  obtain ⟨l₁, x, l₂, y, l₃, hdec, hxy⟩ :=
    two_mem_split ((mem_cellList _).mpr hA) ((mem_cellList _).mpr hB) hne
  rcases hxy with ⟨hxa, hyb⟩ | ⟨hxb, hya⟩
  · subst hxa; subst hyb
    obtain ⟨hch, hle, hgx, hgy⟩ :=
      accPass_cycle_core hdec hs hrAB hrBA hA hB hnA hnB
    exact ⟨hch, le_trans hminB hle,
      le_min (by linarith) (by linarith)⟩
  · subst hxb; subst hya
    obtain ⟨hch, hle, hgx, hgy⟩ :=
      accPass_cycle_core hdec hs hrBA hrAB hB hA hnB hnA
    exact ⟨hch, le_trans hminA hle,
      le_min (by linarith) (by linarith)⟩

/-- On any grid with a two-cell mutual-drainage cycle the runaway guard
fires, provided the fuel `N` exceeds the number of doublings `n` needed to
push the smaller of the two cells' values above `1e6`: while the guard has
not fired both cells keep exchanging their (ever at least doubling) totals,
every pass stays `changed`, and once a downstream value exceeds `1e6` the
next visit marks the source processed. -/
theorem accLoop_cycle_fires {rows cols : ℕ} {fd : ℕ → ℕ → ℕ} {ai aj bi bj : ℕ}
    (hA : ai < rows ∧ aj < cols) (hB : bi < rows ∧ bj < cols)
    (hne : ((ai, aj) : ℕ × ℕ) ≠ (bi, bj))
    (hrAB : routesTo fd ai aj bi bj) (hrBA : routesTo fd bi bj ai aj) :
    ∀ (N n : ℕ) (s : AccState), n < N → InvA s →
      (1000000 : ℚ) < 2 ^ n * min (s.acc ai aj) (s.acc bi bj) →
      guardFired ai aj bi bj (accLoop rows cols fd N s).1
  | 0, n, _, hn, _, _ => absurd hn (Nat.not_lt_zero n)
  | N + 1, n, s, hn, hs, hbig => by
    rw [accLoop_succ_eq]
    by_cases hP : guardFired ai aj bi bj (accPass rows cols fd s)
    · by_cases hc : (accPass rows cols fd s).changed = true
      · rw [if_pos hc]
        by_cases hN : N = 0
        · rw [if_pos hN]
          exact hP
        · rw [if_neg hN]
          rcases hP with h | h
          · exact Or.inl (accLoop_processed_mono N _ h)
          · exact Or.inr (accLoop_processed_mono N _ h)
      · rw [if_neg hc]
        exact hP
    · obtain ⟨hch, hle, hgrow⟩ := accPass_cycle hA hB hne hrAB hrBA s hs hP
      cases n with
      | zero =>
        exfalso
        rw [pow_zero, one_mul] at hbig
        linarith
      | succ k =>
        rw [if_pos hch]
        have hN : N ≠ 0 := by omega
        rw [if_neg hN]
        apply accLoop_cycle_fires hA hB hne hrAB hrBA N k _ (by omega)
          (accPass_inv hs)
        have hpow : (0 : ℚ) ≤ 2 ^ k := by positivity
        have hstep : (1000000 : ℚ) <
            2 ^ k * (2 * min (s.acc ai aj) (s.acc bi bj)) := by
          calc (1000000 : ℚ)
              < 2 ^ (k + 1) * min (s.acc ai aj) (s.acc bi bj) := hbig
            _ = 2 ^ k * (2 * min (s.acc ai aj) (s.acc bi bj)) := by ring
        exact lt_of_lt_of_le hstep (mul_le_mul_of_nonneg_left hgrow hpow)

/-! ## Convergence bookkeeping of the iteration loop -/

/-- If a cell's sweep step leaves the pass unmarked, it performed no
addition at all: with all values at least 1, any addition moves the
destination by at least 1 > 0.1 and marks the pass changed. -/
theorem accCellStep_unchanged {rows cols : ℕ} {fd : ℕ → ℕ → ℕ} {s : AccState}
    (hs : InvA s) (ij : ℕ × ℕ) :
    (accCellStep rows cols fd s ij).changed = false →
      s.changed = false ∧ (accCellStep rows cols fd s ij).acc = s.acc := by
  unfold accCellStep
  dsimp only
  split
  · exact fun h => ⟨h, rfl⟩
  split
  · exact fun h => ⟨h, rfl⟩
  split
  · split
    · exact fun h => ⟨h, rfl⟩
    · intro h
      exfalso
      simp only [Bool.or_eq_false_iff, decide_eq_false_iff_not] at h
      apply h.2
      rw [add_sub_cancel_left]
      have h1 : (1 : ℚ) ≤ s.acc ij.1 ij.2 := hs ij.1 ij.2
      rw [abs_of_nonneg (by linarith)]
      linarith
  · exact fun h => ⟨h, rfl⟩

theorem accFold_unchanged {rows cols : ℕ} {fd : ℕ → ℕ → ℕ} :
    ∀ (l : List (ℕ × ℕ)) (s : AccState), InvA s →
      (l.foldl (accCellStep rows cols fd) s).changed = false →
      s.changed = false ∧
        ∀ p q, (l.foldl (accCellStep rows cols fd) s).acc p q = s.acc p q
  | [], _, _, h => ⟨h, fun _ _ => rfl⟩
  | ij :: l, s, hs, h => by
    have ih := accFold_unchanged l (accCellStep rows cols fd s ij)
      (accCellStep_inv hs ij) h
    have hstep := accCellStep_unchanged hs ij ih.1
    exact ⟨hstep.1, fun p q => (ih.2 p q).trans (by rw [hstep.2])⟩

/-- A pass that ends with `changed = false` performed no addition: the
accumulation field is untouched. -/
theorem accPass_unchanged {rows cols : ℕ} {fd : ℕ → ℕ → ℕ} {s : AccState}
    (hs : InvA s) (h : (accPass rows cols fd s).changed = false) :
    ∀ p q, (accPass rows cols fd s).acc p q = s.acc p q :=
  (accFold_unchanged _ { s with changed := false } hs h).2

/-- Bookkeeping of the iteration loop: the pass count never exceeds the
fuel, at least one pass always runs, the warning implies the fuel was
exhausted, and an early stop happens exactly after a pass that moved no
cell (its result is the unchanged image of the previous state). -/
theorem accLoop_spec {rows cols : ℕ} {fd : ℕ → ℕ → ℕ} :
    ∀ (n : ℕ) (s : AccState), InvA s →
      (accLoop rows cols fd n s).2.1 ≤ n
      ∧ (1 ≤ n → 1 ≤ (accLoop rows cols fd n s).2.1)
      ∧ ((accLoop rows cols fd n s).2.2 = true →
          (accLoop rows cols fd n s).2.1 = n)
      ∧ ((accLoop rows cols fd n s).2.1 < n →
          (accLoop rows cols fd n s).1.changed = false
          ∧ ∃ t, InvA t ∧ (accLoop rows cols fd n s).1 = accPass rows cols fd t
              ∧ ∀ p q, (accLoop rows cols fd n s).1.acc p q = t.acc p q)
  | 0, s, _ => by
    refine ⟨le_rfl, fun h => absurd h (by omega), fun h => rfl, fun h => ?_⟩
    exact absurd h (by omega)
  | n + 1, s, hs => by
    rw [accLoop_succ_eq]
    by_cases hc : (accPass rows cols fd s).changed = true
    · rw [if_pos hc]
      by_cases hN : n = 0
      · rw [if_pos hN]
        dsimp only
        refine ⟨by omega, fun _ => le_rfl, fun _ => by omega, fun h => ?_⟩
        exact absurd h (by omega)
      · rw [if_neg hN]
        dsimp only
        have ih := @accLoop_spec rows cols fd n (accPass rows cols fd s)
          (accPass_inv hs)
        refine ⟨by have := ih.1; omega, fun _ => by omega, fun hw => ?_, fun hk => ?_⟩
        · have := ih.2.2.1 hw
          omega
        · have hk' : (accLoop rows cols fd n (accPass rows cols fd s)).2.1 < n := by
            omega
          exact ih.2.2.2 hk'
    · rw [if_neg hc]
      dsimp only
      have hcf : (accPass rows cols fd s).changed = false :=
        Bool.eq_false_iff.mpr hc
      refine ⟨by omega, fun _ => le_rfl, fun hw => Bool.noConfusion hw, fun _ => ?_⟩
      exact ⟨hcf, s, hs, rfl, accPass_unchanged hs hcf⟩


/-- The sequence of states the iteration loop walks through: `passIter s m`
is the state after `m` full-grid passes starting from `s`. -/
def passIter (rows cols : ℕ) (fd : ℕ → ℕ → ℕ) (s : AccState) : ℕ → AccState
  | 0 => s
  | m + 1 => accPass rows cols fd (passIter rows cols fd s m)

theorem passIter_shift (rows cols : ℕ) (fd : ℕ → ℕ → ℕ) (s : AccState) :
    ∀ m, passIter rows cols fd (accPass rows cols fd s) m
      = passIter rows cols fd s (m + 1)
  | 0 => rfl
  | m + 1 => by
    show accPass rows cols fd (passIter rows cols fd (accPass rows cols fd s) m)
        = accPass rows cols fd (passIter rows cols fd s (m + 1))
    rw [passIter_shift rows cols fd s m]

theorem passIter_inv {rows cols : ℕ} {fd : ℕ → ℕ → ℕ} {s : AccState}
    (hs : InvA s) : ∀ m, InvA (passIter rows cols fd s m)
  | 0 => hs
  | m + 1 => accPass_inv (passIter_inv hs m)

/-- Full trajectory characterization of the iteration loop: the returned
state is exactly the `k`-th iterate, every pass strictly before the stopping
pass had `changed = true` (so the loop never stops while passes are still
moving cells), a stop before the fuel runs out happens at a pass with
`changed = false`, and the warning flag is set IF AND ONLY IF the loop ran
its full fuel with the last pass still marked changed. -/
theorem accLoop_traj {rows cols : ℕ} {fd : ℕ → ℕ → ℕ} :
    ∀ (n : ℕ) (s : AccState),
      (accLoop rows cols fd n s).1
          = passIter rows cols fd s (accLoop rows cols fd n s).2.1
      ∧ (∀ m, 1 ≤ m → m < (accLoop rows cols fd n s).2.1 →
          (passIter rows cols fd s m).changed = true)
      ∧ ((accLoop rows cols fd n s).2.1 < n →
          (passIter rows cols fd s (accLoop rows cols fd n s).2.1).changed
            = false)
      ∧ ((accLoop rows cols fd n s).2.2 = true ↔
          (1 ≤ n ∧ (accLoop rows cols fd n s).2.1 = n
            ∧ (passIter rows cols fd s n).changed = true))
  | 0, s => by
    have h0 : accLoop rows cols fd 0 s = (s, 0, false) := rfl
    rw [h0]
    dsimp only
    refine ⟨rfl, fun m h1 h2 => absurd h2 (by omega),
      fun h => absurd h (by omega), ?_⟩
    constructor
    · intro h
      exact Bool.noConfusion h
    · rintro ⟨h1, _, _⟩
      exact absurd h1 (by omega)
  | n + 1, s => by
    rw [accLoop_succ_eq]
    by_cases hc : (accPass rows cols fd s).changed = true
    · rw [if_pos hc]
      by_cases hn : n = 0
      · rw [if_pos hn]
        subst hn
        dsimp only
        refine ⟨rfl, fun m h1 h2 => absurd h2 (by omega),
          fun h => absurd h (by omega), ?_⟩
        constructor
        · intro _
          exact ⟨by omega, rfl, hc⟩
        · intro _
          rfl
      · rw [if_neg hn]
        dsimp only
        obtain ⟨ht, hmid, hstop, hw⟩ := accLoop_traj n (accPass rows cols fd s)
        have hshift := passIter_shift rows cols fd s
        refine ⟨?_, ?_, ?_, ?_⟩
        · rw [ht, hshift]
        · intro m h1 h2
          rcases m with _ | m'
          · omega
          rcases m' with _ | m''
          · exact hc
          · have hx := hmid (m'' + 1) (by omega) (by omega)
            rw [hshift] at hx
            exact hx
        · intro hk
          have hx := hstop (by omega)
          rw [hshift] at hx
          exact hx
        · constructor
          · intro hwt
            obtain ⟨_, hkn, hch⟩ := hw.mp hwt
            refine ⟨by omega, by omega, ?_⟩
            rw [← hshift]
            exact hch
          · rintro ⟨_, hkn, hch⟩
            apply hw.mpr
            refine ⟨by omega, by omega, ?_⟩
            rw [hshift]
            exact hch
    · rw [if_neg hc]
      dsimp only
      have hcf : (accPass rows cols fd s).changed = false :=
        Bool.eq_false_iff.mpr hc
      refine ⟨rfl, fun m h1 h2 => absurd h2 (by omega), fun _ => hcf, ?_⟩
      constructor
      · intro h
        exact Bool.noConfusion h
      · rintro ⟨h1, hk, hch⟩
        have hn0 : n = 0 := by omega
        subst hn0
        have hx : (accPass rows cols fd s).changed = true := hch
        rw [hcf] at hx
        exact Bool.noConfusion hx

/-! ## Claims C2, C3, C4 -/

/-- C4: for every direction field, every in-bounds cell of the accumulation
field returned by `calculate_flow_accumulation` is at least 1 and at most
1e6: values start at 1.0 per cell, are only ever increased during passes,
and are clamped into `[0, 1e6]` before return. -/
theorem C4_accumulation_bounds (rows cols : ℕ) (fd : ℕ → ℕ → ℕ) (i j : ℕ)
    (hi : i < rows) (hj : j < cols) :
    1 ≤ (calculate_flow_accumulation rows cols fd).1 i j
    ∧ (calculate_flow_accumulation rows cols fd).1 i j ≤ 1000000 := by
  have hinv : InvA (accRaw rows cols fd).1 :=
    accLoop_inv 50 accInit (fun _ _ => le_rfl)
  have h1 : (1 : ℚ) ≤ (accRaw rows cols fd).1.acc i j := hinv i j
  constructor
  · show 1 ≤ min (max ((accRaw rows cols fd).1.acc i j) 0) 1000000
    exact le_min (le_trans h1 (le_max_left _ _)) (by norm_num)
  · exact min_le_right _ _

/-- Witness for C4 on a concrete 1×1 all-sink grid. -/
theorem C4_accumulation_bounds_witness :
    1 ≤ (calculate_flow_accumulation 1 1 (fun _ _ => 0)).1 0 0
    ∧ (calculate_flow_accumulation 1 1 (fun _ _ => 0)).1 0 0 ≤ 1000000 :=
  C4_accumulation_bounds 1 1 (fun _ _ => 0) 0 0 (by decide) (by decide)

/-- C3: for every direction field, `calculate_flow_accumulation` performs at
most 50 (and at least one) full-grid passes and its raw result is exactly
the `k`-th pass iterate; every pass strictly before the stopping pass moved
some destination cell by more than 0.1 (`changed = true`), so the loop stops
early exactly after the first pass in which no destination cell's value
changed by more than 0.1 (such a pass in fact moves nothing at all, the
field being pointwise unchanged), and any unchanged pass halts the
iteration there; the warning is reported IF AND ONLY IF the 50-pass cap is
reached with the last pass still changed; and in every case — warning
included — the run does not fail and returns the clamp into `[0, 1e6]` of
the iterated field. -/
theorem C3_iteration_cap (rows cols : ℕ) (fd : ℕ → ℕ → ℕ) :
    (calculate_flow_accumulation rows cols fd).2.1 ≤ 50
    ∧ 1 ≤ (calculate_flow_accumulation rows cols fd).2.1
    ∧ (accRaw rows cols fd).1
        = passIter rows cols fd accInit
            (calculate_flow_accumulation rows cols fd).2.1
    ∧ (∀ m, 1 ≤ m → m < (calculate_flow_accumulation rows cols fd).2.1 →
        (passIter rows cols fd accInit m).changed = true)
    ∧ ((calculate_flow_accumulation rows cols fd).2.1 < 50 →
        (passIter rows cols fd accInit
            (calculate_flow_accumulation rows cols fd).2.1).changed = false
        ∧ ∀ p q, (passIter rows cols fd accInit
              (calculate_flow_accumulation rows cols fd).2.1).acc p q
            = (passIter rows cols fd accInit
              ((calculate_flow_accumulation rows cols fd).2.1 - 1)).acc p q)
    ∧ (∀ m, 1 ≤ m → m ≤ 50 →
        (passIter rows cols fd accInit m).changed = false →
        (calculate_flow_accumulation rows cols fd).2.1 ≤ m)
    ∧ ((calculate_flow_accumulation rows cols fd).2.2 = true ↔
        ((calculate_flow_accumulation rows cols fd).2.1 = 50
          ∧ (passIter rows cols fd accInit 50).changed = true))
    ∧ (∀ i j, (calculate_flow_accumulation rows cols fd).1 i j
        = min (max ((accRaw rows cols fd).1.acc i j) 0) 1000000) := by
  obtain ⟨hk50, hk1, -, -⟩ := @accLoop_spec rows cols fd 50 accInit
    (fun _ _ => le_rfl)
  obtain ⟨ht, hmid, hstop, hw⟩ := @accLoop_traj rows cols fd 50 accInit
  have hsame : (accLoop rows cols fd 50 accInit).2.1
      = (calculate_flow_accumulation rows cols fd).2.1 := rfl
  rw [hsame] at hk50 hk1 ht hmid hstop hw
  refine ⟨hk50, hk1 (by omega), ht, hmid, ?_, ?_, ?_, fun i j => rfl⟩
  · intro hk
    have hcf := hstop hk
    refine ⟨hcf, ?_⟩
    have hk1' : 1 ≤ (calculate_flow_accumulation rows cols fd).2.1 :=
      hk1 (by omega)
    obtain ⟨m, hm⟩ :
        ∃ m, (calculate_flow_accumulation rows cols fd).2.1 = m + 1 :=
      ⟨(calculate_flow_accumulation rows cols fd).2.1 - 1, by omega⟩
    rw [hm, Nat.add_sub_cancel]
    rw [hm] at hcf
    exact accPass_unchanged (passIter_inv (fun _ _ => le_rfl) m) hcf
  · intro m h1 h50 hchf
    by_contra hgt
    have hx := hmid m h1 (by omega)
    rw [hx] at hchf
    exact Bool.noConfusion hchf
  · constructor
    · intro h
      obtain ⟨-, hk, hch⟩ := hw.mp h
      exact ⟨hk, hch⟩
    · rintro ⟨hk, hch⟩
      exact hw.mpr ⟨by omega, hk, hch⟩

/-- A 1×2 chain grid: cell (0,0) drains east into the sink (0,1). -/
def chainFd : ℕ → ℕ → ℕ := fun _ j => if j = 0 then 1 else 0

/-- Witness for C3 on the concrete 1×2 chain grid. -/
theorem C3_iteration_cap_witness :
    (calculate_flow_accumulation 1 2 chainFd).2.1 ≤ 50
    ∧ 1 ≤ (calculate_flow_accumulation 1 2 chainFd).2.1
    ∧ (accRaw 1 2 chainFd).1
        = passIter 1 2 chainFd accInit
            (calculate_flow_accumulation 1 2 chainFd).2.1
    ∧ (∀ m, 1 ≤ m → m < (calculate_flow_accumulation 1 2 chainFd).2.1 →
        (passIter 1 2 chainFd accInit m).changed = true)
    ∧ ((calculate_flow_accumulation 1 2 chainFd).2.1 < 50 →
        (passIter 1 2 chainFd accInit
            (calculate_flow_accumulation 1 2 chainFd).2.1).changed = false
        ∧ ∀ p q, (passIter 1 2 chainFd accInit
              (calculate_flow_accumulation 1 2 chainFd).2.1).acc p q
            = (passIter 1 2 chainFd accInit
              ((calculate_flow_accumulation 1 2 chainFd).2.1 - 1)).acc p q)
    ∧ (∀ m, 1 ≤ m → m ≤ 50 →
        (passIter 1 2 chainFd accInit m).changed = false →
        (calculate_flow_accumulation 1 2 chainFd).2.1 ≤ m)
    ∧ ((calculate_flow_accumulation 1 2 chainFd).2.2 = true ↔
        ((calculate_flow_accumulation 1 2 chainFd).2.1 = 50
          ∧ (passIter 1 2 chainFd accInit 50).changed = true))
    ∧ (∀ i j, (calculate_flow_accumulation 1 2 chainFd).1 i j
        = min (max ((accRaw 1 2 chainFd).1.acc i j) 0) 1000000) :=
  C3_iteration_cap 1 2 chainFd

/-- C2: on every direction field containing a two-cell mutual-drainage
cycle, the runaway guard fires — at least one of the two cells ends marked
`processed`, i.e. skipped because its downstream cell's value exceeded 1e6 —
and the returned accumulation values of both cells are bounded by the 1e6
clamp ceiling instead of growing without bound across the iterations. -/
theorem C2_runaway_guard (rows cols : ℕ) (fd : ℕ → ℕ → ℕ) (ai aj bi bj : ℕ)
    (hA : ai < rows ∧ aj < cols) (hB : bi < rows ∧ bj < cols)
    (hne : ((ai, aj) : ℕ × ℕ) ≠ (bi, bj))
    (hrAB : routesTo fd ai aj bi bj) (hrBA : routesTo fd bi bj ai aj) :
    guardFired ai aj bi bj (accRaw rows cols fd).1
    ∧ (calculate_flow_accumulation rows cols fd).1 ai aj ≤ 1000000
    ∧ (calculate_flow_accumulation rows cols fd).1 bi bj ≤ 1000000 := by
  refine ⟨?_, min_le_right _ _, min_le_right _ _⟩
  apply accLoop_cycle_fires hA hB hne hrAB hrBA 50 20 accInit (by omega)
    (fun _ _ => le_rfl)
  norm_num [accInit]

/-- A 1×2 grid whose two cells drain into each other (codes E and W). -/
def mutualFd : ℕ → ℕ → ℕ := fun i j =>
  if i = 0 ∧ j = 0 then 1 else if i = 0 ∧ j = 1 then 16 else 0

/-- Witness for C2 on the synthetic two-cell mutual-drainage pair. -/
theorem C2_runaway_guard_witness :
    guardFired 0 0 0 1 (accRaw 1 2 mutualFd).1
    ∧ (calculate_flow_accumulation 1 2 mutualFd).1 0 0 ≤ 1000000
    ∧ (calculate_flow_accumulation 1 2 mutualFd).1 0 1 ≤ 1000000 :=
  C2_runaway_guard 1 2 mutualFd 0 0 0 1 (by decide) (by decide) (by decide)
    ⟨(0, 1), by decide, by decide, by decide⟩
    ⟨(0, -1), by decide, by decide, by decide⟩

/-! ## The slope comparison over the reals -/

/-- The mathematical slope value `d / sqrt w` the float code computes. -/
noncomputable def slopeReal (d : ℚ) (w : ℕ) : ℝ := (d : ℝ) / Real.sqrt (w : ℝ)

/-- The decidable test `sgtB` is exactly the real-number comparison of the
two slopes (for positive squared distances). -/
theorem sgtB_iff (d1 d2 : ℚ) (w1 w2 : ℕ) (h1 : 0 < w1) (h2 : 0 < w2) :
    sgtB d1 w1 d2 w2 = true ↔ slopeReal d2 w2 < slopeReal d1 w1 := by
  have hw1 : (0 : ℝ) < (w1 : ℝ) := by exact_mod_cast h1
  have hw2 : (0 : ℝ) < (w2 : ℝ) := by exact_mod_cast h2
  have hs1 : (0 : ℝ) < Real.sqrt (w1 : ℝ) := Real.sqrt_pos.mpr hw1
  have hs2 : (0 : ℝ) < Real.sqrt (w2 : ℝ) := Real.sqrt_pos.mpr hw2
  have e1 : Real.sqrt (w1 : ℝ) ^ 2 = (w1 : ℝ) := Real.sq_sqrt hw1.le
  have e2 : Real.sqrt (w2 : ℝ) ^ 2 = (w2 : ℝ) := Real.sq_sqrt hw2.le
  unfold slopeReal
  rw [div_lt_div_iff hs2 hs1]
  unfold sgtB
  split_ifs with hd1 hd2 hd2'
  · have hd1R : (0 : ℝ) ≤ (d1 : ℝ) := by exact_mod_cast hd1
    have hd2R : (d2 : ℝ) < 0 := by exact_mod_cast hd2
    simp only [true_iff]
    calc (d2 : ℝ) * Real.sqrt w1 < 0 := mul_neg_of_neg_of_pos hd2R hs1
      _ ≤ (d1 : ℝ) * Real.sqrt w2 := mul_nonneg hd1R hs2.le
  · have hd1R : (0 : ℝ) ≤ (d1 : ℝ) := by exact_mod_cast hd1
    have hd2R : (0 : ℝ) ≤ (d2 : ℝ) := by exact_mod_cast not_lt.mp hd2
    rw [decide_eq_true_eq]
    have ha2 : ((d2 : ℝ) * Real.sqrt w1) ^ 2 = (d2 : ℝ) ^ 2 * w1 := by
      rw [mul_pow, e1]
    have hb2 : ((d1 : ℝ) * Real.sqrt w2) ^ 2 = (d1 : ℝ) ^ 2 * w2 := by
      rw [mul_pow, e2]
    constructor
    · intro hQ
      have hR : (d2 : ℝ) ^ 2 * (w1 : ℝ) < (d1 : ℝ) ^ 2 * (w2 : ℝ) := by
        exact_mod_cast hQ
      have := lt_of_pow_lt_pow_left 2 (mul_nonneg hd1R hs2.le)
        (by rw [ha2, hb2]; exact hR)
      exact this
    · intro hR
      have hpow : ((d2 : ℝ) * Real.sqrt w1) ^ 2 < ((d1 : ℝ) * Real.sqrt w2) ^ 2 :=
        pow_lt_pow_left hR (mul_nonneg hd2R hs1.le) (by omega)
      rw [ha2, hb2] at hpow
      exact_mod_cast hpow
  · have hd1R : (d1 : ℝ) < 0 := by exact_mod_cast not_le.mp hd1
    have hd2R : (0 : ℝ) ≤ (d2 : ℝ) := by exact_mod_cast hd2'
    simp only [false_iff, not_lt]
    calc (d1 : ℝ) * Real.sqrt w2 ≤ 0 := by
            exact le_of_lt (mul_neg_of_neg_of_pos hd1R hs2)
      _ ≤ (d2 : ℝ) * Real.sqrt w1 := mul_nonneg hd2R hs1.le
  · have hd1R : (d1 : ℝ) < 0 := by exact_mod_cast not_le.mp hd1
    have hd2R : (d2 : ℝ) < 0 := by exact_mod_cast not_le.mp hd2'
    rw [decide_eq_true_eq]
    have ha2 : (-((d2 : ℝ) * Real.sqrt w1)) ^ 2 = (d2 : ℝ) ^ 2 * w1 := by
      rw [neg_pow]; rw [mul_pow, e1]; ring
    have hb2 : (-((d1 : ℝ) * Real.sqrt w2)) ^ 2 = (d1 : ℝ) ^ 2 * w2 := by
      rw [neg_pow]; rw [mul_pow, e2]; ring
    have hna : (0 : ℝ) ≤ -((d2 : ℝ) * Real.sqrt w1) := by
      have := mul_neg_of_neg_of_pos hd2R hs1
      linarith
    have hnb : (0 : ℝ) ≤ -((d1 : ℝ) * Real.sqrt w2) := by
      have := mul_neg_of_neg_of_pos hd1R hs2
      linarith
    constructor
    · intro hQ
      have hR : (d1 : ℝ) ^ 2 * (w2 : ℝ) < (d2 : ℝ) ^ 2 * (w1 : ℝ) := by
        exact_mod_cast hQ
      have hpow2 : (-((d1 : ℝ) * Real.sqrt w2)) ^ 2
          < (-((d2 : ℝ) * Real.sqrt w1)) ^ 2 := by
        rw [ha2, hb2]
        exact hR
      have := lt_of_pow_lt_pow_left 2 hna hpow2
      linarith
    · intro hR
      have hlt : -((d1 : ℝ) * Real.sqrt w2) < -((d2 : ℝ) * Real.sqrt w1) := by
        linarith
      have hpow := pow_lt_pow_left hlt hnb (two_ne_zero)
      rw [ha2, hb2] at hpow
      exact_mod_cast hpow

/-! ## The steepest-descent invariant of the neighbor loop -/

/-- The elevation sample of the neighbor of `(i, j)` at offset `nb`. -/
def nbElev (dem : ℕ → ℕ → Option ℚ) (i j : ℕ) (nb : ℤ × ℤ × ℕ) : Option ℚ :=
  dem ((i : ℤ) + nb.1).toNat ((j : ℤ) + nb.2.1).toNat

/-- A neighbor is valid when it is in bounds and not NaN — exactly the
neighbors the inner loop of `calculate_flow_direction_d8` considers. -/
def validNb (rows cols : ℕ) (dem : ℕ → ℕ → Option ℚ) (i j : ℕ)
    (nb : ℤ × ℤ × ℕ) : Prop :=
  (0 ≤ (i : ℤ) + nb.1 ∧ (i : ℤ) + nb.1 < (rows : ℤ) ∧
    0 ≤ (j : ℤ) + nb.2.1 ∧ (j : ℤ) + nb.2.1 < (cols : ℤ))
  ∧ nbElev dem i j nb ≠ none

/-- The real slope from center elevation `c` toward neighbor `nb`:
`(center - neighbor) / distance`, distance 1 orthogonal and `√2` diagonal. -/
noncomputable def nbSlope (dem : ℕ → ℕ → Option ℚ) (i j : ℕ) (c : ℚ)
    (nb : ℤ × ℤ × ℕ) : ℝ :=
  slopeReal (c - (nbElev dem i j nb).getD 0) (wNat nb)

/-- Invariant of the neighbor fold after processing prefix `p`: either no
valid neighbor has been seen and the state is still the sentinel, or the
state carries the first-encountered neighbor of maximal slope in `p`. -/
def D8Good (rows cols : ℕ) (dem : ℕ → ℕ → Option ℚ) (i j : ℕ) (c : ℚ)
    (p : List (ℤ × ℤ × ℕ)) (st : Option (ℚ × ℕ) × ℕ) : Prop :=
  (st = (none, 0) ∧ ∀ nb ∈ p, ¬ validNb rows cols dem i j nb) ∨
  (∃ l₁ nb l₂, p = l₁ ++ nb :: l₂ ∧ validNb rows cols dem i j nb ∧
    st = (some (c - (nbElev dem i j nb).getD 0, wNat nb), nb.2.2) ∧
    (∀ x ∈ l₁, validNb rows cols dem i j x →
      nbSlope dem i j c x < nbSlope dem i j c nb) ∧
    (∀ x ∈ p, validNb rows cols dem i j x →
      nbSlope dem i j c x ≤ nbSlope dem i j c nb))

theorem d8Step_good {rows cols : ℕ} {dem : ℕ → ℕ → Option ℚ} {i j : ℕ}
    {c : ℚ} {p : List (ℤ × ℤ × ℕ)} {st : Option (ℚ × ℕ) × ℕ}
    (nb : ℤ × ℤ × ℕ) (hwnb : 0 < wNat nb) (hwp : ∀ x ∈ p, 0 < wNat x)
    (hg : D8Good rows cols dem i j c p st) :
    D8Good rows cols dem i j c (p ++ [nb])
      (d8Step rows cols dem i j c st nb) := by
  by_cases hv : validNb rows cols dem i j nb
  · obtain ⟨hbnd, hne⟩ := hv
    obtain ⟨nv, hnv⟩ := Option.ne_none_iff_exists'.mp hne
    have hgetD : (nbElev dem i j nb).getD 0 = nv := by rw [hnv]; rfl
    have hstep : d8Step rows cols dem i j c st nb =
        if sgtOpt (c - nv) (wNat nb) st.1 then (some (c - nv, wNat nb), nb.2.2)
        else st := by
      unfold d8Step
      dsimp only
      rw [if_pos hbnd]
      rw [show dem ((i : ℤ) + nb.1).toNat ((j : ℤ) + nb.2.1).toNat = some nv
        from hnv]
    rw [hstep]
    rcases hg with ⟨hst, hall⟩ | ⟨l₁, nb₀, l₂, hp, hv₀, hst, hstrict, hle⟩
    · rw [hst]
      have hco : sgtOpt (c - nv) (wNat nb)
          (((none, 0) : Option (ℚ × ℕ) × ℕ)).1 = true := rfl
      rw [if_pos hco]
      right
      refine ⟨p, nb, [], by simp, ⟨hbnd, hne⟩, by rw [hgetD], ?_, ?_⟩
      · exact fun x hx hvx => absurd hvx (hall x hx)
      · intro x hx hvx
        rcases List.mem_append.mp hx with h | h
        · exact absurd hvx (hall x h)
        · rw [List.mem_singleton] at h
          subst h
          exact le_rfl
    · have hw₀ : 0 < wNat nb₀ := by
        refine hwp nb₀ ?_
        rw [hp]
        exact List.mem_append_right _ (List.mem_cons_self _ _)
      rw [hst]
      dsimp only [sgtOpt]
      by_cases hcmp : sgtB (c - nv) (wNat nb)
          (c - (nbElev dem i j nb₀).getD 0) (wNat nb₀) = true
      · rw [if_pos hcmp]
        have hb₀nb : nbSlope dem i j c nb₀ < nbSlope dem i j c nb := by
          have hr := (sgtB_iff (c - nv) (c - (nbElev dem i j nb₀).getD 0)
            (wNat nb) (wNat nb₀) hwnb hw₀).mp hcmp
          unfold nbSlope
          rw [hgetD]
          exact hr
        right
        refine ⟨p, nb, [], by simp, ⟨hbnd, hne⟩, by rw [hgetD], ?_, ?_⟩
        · exact fun x hx hvx => lt_of_le_of_lt (hle x hx hvx) hb₀nb
        · intro x hx hvx
          rcases List.mem_append.mp hx with h | h
          · exact le_trans (hle x h hvx) hb₀nb.le
          · rw [List.mem_singleton] at h
            subst h
            exact le_rfl
      · rw [if_neg hcmp]
        have hnbb₀ : nbSlope dem i j c nb ≤ nbSlope dem i j c nb₀ := by
          have hr : ¬ (nbSlope dem i j c nb₀ < nbSlope dem i j c nb) := by
            intro hlt
            apply hcmp
            refine (sgtB_iff (c - nv) (c - (nbElev dem i j nb₀).getD 0)
              (wNat nb) (wNat nb₀) hwnb hw₀).mpr ?_
            unfold nbSlope at hlt
            rw [hgetD] at hlt
            exact hlt
          exact not_lt.mp hr
        right
        refine ⟨l₁, nb₀, l₂ ++ [nb], by rw [hp]; simp, hv₀, rfl, hstrict, ?_⟩
        intro x hx hvx
        rcases List.mem_append.mp hx with h | h
        · exact hle x h hvx
        · rw [List.mem_singleton] at h
          subst h
          exact hnbb₀
  · have hstep : d8Step rows cols dem i j c st nb = st := by
      unfold d8Step
      dsimp only
      split
      · next hbnd =>
        split
        · rfl
        · next nv heq =>
          exact absurd ⟨hbnd, by simp [nbElev, heq]⟩ hv
      · rfl
    rw [hstep]
    rcases hg with ⟨hst, hall⟩ | ⟨l₁, nb₀, l₂, hp, hv₀, hst, hstrict, hle⟩
    · left
      refine ⟨hst, fun x hx => ?_⟩
      rcases List.mem_append.mp hx with h | h
      · exact hall x h
      · rw [List.mem_singleton] at h
        subst h
        exact hv
    · right
      refine ⟨l₁, nb₀, l₂ ++ [nb], by rw [hp]; simp, hv₀, hst, hstrict, ?_⟩
      intro x hx hvx
      rcases List.mem_append.mp hx with h | h
      · exact hle x h hvx
      · rw [List.mem_singleton] at h
        subst h
        exact absurd hvx hv

theorem d8Fold_good {rows cols : ℕ} {dem : ℕ → ℕ → Option ℚ} {i j : ℕ}
    {c : ℚ} :
    ∀ (l p : List (ℤ × ℤ × ℕ)) (st : Option (ℚ × ℕ) × ℕ),
      (∀ x ∈ l, 0 < wNat x) → (∀ x ∈ p, 0 < wNat x) →
      D8Good rows cols dem i j c p st →
      D8Good rows cols dem i j c (p ++ l)
        (l.foldl (d8Step rows cols dem i j c) st)
  | [], p, st, _, _, hg => by simpa using hg
  | nb :: l, p, st, hl, hp, hg => by
    have h1 := d8Step_good nb (hl nb (List.mem_cons_self _ _)) hp hg
    have h2 := d8Fold_good l (p ++ [nb]) (d8Step rows cols dem i j c st nb)
      (fun x hx => hl x (List.mem_cons_of_mem _ hx))
      (fun x hx => by
        rcases List.mem_append.mp hx with h | h
        · exact hp x h
        · rw [List.mem_singleton] at h
          subst h
          exact hl x (List.mem_cons_self _ _))
      h1
    simpa [List.append_assoc] using h2

/-! ## Claims C5, C10, C1 -/

theorem d8Step_code {rows cols : ℕ} {dem : ℕ → ℕ → Option ℚ} {i j : ℕ}
    {c : ℚ} (st : Option (ℚ × ℕ) × ℕ) (nb : ℤ × ℤ × ℕ) :
    (d8Step rows cols dem i j c st nb).2 = st.2
    ∨ (d8Step rows cols dem i j c st nb).2 = nb.2.2 := by
  unfold d8Step
  dsimp only
  split
  · split
    · exact Or.inl rfl
    · split
      · exact Or.inr rfl
      · exact Or.inl rfl
  · exact Or.inl rfl

theorem d8Fold_code {rows cols : ℕ} {dem : ℕ → ℕ → Option ℚ} {i j : ℕ}
    {c : ℚ} :
    ∀ (l : List (ℤ × ℤ × ℕ)) (st : Option (ℚ × ℕ) × ℕ),
      (l.foldl (d8Step rows cols dem i j c) st).2 = st.2
      ∨ ∃ x ∈ l, (l.foldl (d8Step rows cols dem i j c) st).2 = x.2.2
  | [], _ => Or.inl rfl
  | nb :: l, st => by
    rcases d8Fold_code l (d8Step rows cols dem i j c st nb) with h | ⟨x, hx, he⟩
    · rcases d8Step_code st nb with h2 | h2
      · exact Or.inl (h.trans h2)
      · exact Or.inr ⟨nb, List.mem_cons_self _ _, h.trans h2⟩
    · exact Or.inr ⟨x, List.mem_cons_of_mem _ hx, he⟩

/-- Every direction value produced by the resolver is one of the nine legal
codes. -/
theorem d8_code_mem (rows cols : ℕ) (dem : ℕ → ℕ → Option ℚ) (i j : ℕ) :
    calculate_flow_direction_d8 rows cols dem i j
      ∈ ([0, 1, 2, 4, 8, 16, 32, 64, 128] : List ℕ) := by
  simp only [calculate_flow_direction_d8]
  by_cases hint : 1 ≤ i ∧ i < rows - 1 ∧ 1 ≤ j ∧ j < cols - 1
  · rw [if_pos hint]
    cases hdem : dem i j with
    | none =>
      dsimp only
      decide
    | some c =>
      dsimp only
      unfold d8Cell
      rcases d8Fold_code neighborList ((none, 0) : Option (ℚ × ℕ) × ℕ)
        with h | ⟨x, hx, he⟩
      · rw [h]
        decide
      · rw [he]
        have hall : ∀ x ∈ neighborList,
            x.2.2 ∈ ([0, 1, 2, 4, 8, 16, 32, 64, 128] : List ℕ) := by decide
        exact hall x hx
  · rw [if_neg hint]
    decide

/-- Interiority of any cell holding a non-zero code. -/
theorem d8_nonzero_interior (rows cols : ℕ) (dem : ℕ → ℕ → Option ℚ)
    (i j : ℕ) (hnz : calculate_flow_direction_d8 rows cols dem i j ≠ 0) :
    1 ≤ i ∧ i < rows - 1 ∧ 1 ≤ j ∧ j < cols - 1 := by
  by_contra hint
  apply hnz
  simp only [calculate_flow_direction_d8]
  rw [if_neg hint]

/-- C10: every field produced by `calculate_flow_direction_d8` has code 0 at
every border cell and only codes from {0,1,2,4,8,16,32,64,128} everywhere;
every cell with a non-zero code is interior and its downstream neighbor per
`dir_to_offset` is in bounds, so the offset lookups and bounds checks of the
propagator and the extractor never reject such a cell. -/
theorem C10_direction_field_wellformed (rows cols : ℕ)
    (dem : ℕ → ℕ → Option ℚ) :
    (∀ i j, (i = 0 ∨ i = rows - 1 ∨ j = 0 ∨ j = cols - 1) →
        calculate_flow_direction_d8 rows cols dem i j = 0)
    ∧ (∀ i j, calculate_flow_direction_d8 rows cols dem i j
        ∈ ([0, 1, 2, 4, 8, 16, 32, 64, 128] : List ℕ))
    ∧ (∀ i j, calculate_flow_direction_d8 rows cols dem i j ≠ 0 →
        (1 ≤ i ∧ i < rows - 1 ∧ 1 ≤ j ∧ j < cols - 1)
        ∧ ∃ dd : ℤ × ℤ,
            dirToOffset (calculate_flow_direction_d8 rows cols dem i j)
              = some dd
            ∧ 0 ≤ (i : ℤ) + dd.1 ∧ (i : ℤ) + dd.1 < (rows : ℤ)
            ∧ 0 ≤ (j : ℤ) + dd.2 ∧ (j : ℤ) + dd.2 < (cols : ℤ)) := by
  refine ⟨?_, d8_code_mem rows cols dem, ?_⟩
  · intro i j hb
    simp only [calculate_flow_direction_d8]
    rw [if_neg (by omega)]
  · intro i j hnz
    have hint := d8_nonzero_interior rows cols dem i j hnz
    refine ⟨hint, ?_⟩
    obtain ⟨hi1, hi2, hj1, hj2⟩ := hint
    have hmem := d8_code_mem rows cols dem i j
    simp only [List.mem_cons, List.mem_nil_iff, or_false] at hmem
    rcases hmem with h | h | h | h | h | h | h | h | h
    · exact absurd h hnz
    · exact ⟨(0, 1), by rw [h]; decide, by omega, by omega, by omega, by omega⟩
    · exact ⟨(1, 1), by rw [h]; decide, by omega, by omega, by omega, by omega⟩
    · exact ⟨(1, 0), by rw [h]; decide, by omega, by omega, by omega, by omega⟩
    · exact ⟨(1, -1), by rw [h]; decide, by omega, by omega, by omega, by omega⟩
    · exact ⟨(0, -1), by rw [h]; decide, by omega, by omega, by omega, by omega⟩
    · exact ⟨(-1, -1), by rw [h]; decide, by omega, by omega, by omega, by omega⟩
    · exact ⟨(-1, 0), by rw [h]; decide, by omega, by omega, by omega, by omega⟩
    · exact ⟨(-1, 1), by rw [h]; decide, by omega, by omega, by omega, by omega⟩

/-- C5: for every elevation field and every cell assigned a non-zero code,
the selected neighbor attains the maximum real slope
`(center - neighbor) / distance` (distance 1 orthogonal, `√2` diagonal) over
all valid (in-bounds, non-NaN) neighbors, and every neighbor enumerated
before it (in the fixed order NE, E, SE, S, SW, W, NW, N) has strictly
smaller slope — so among ties at the maximum the first-enumerated neighbor
is the one selected. -/
theorem C5_steepest_descent_tiebreak (rows cols : ℕ)
    (dem : ℕ → ℕ → Option ℚ) (i j : ℕ)
    (hnz : calculate_flow_direction_d8 rows cols dem i j ≠ 0) :
    ∃ c, dem i j = some c ∧
      ∃ l₁ nb l₂, neighborList = l₁ ++ nb :: l₂
        ∧ nb.2.2 = calculate_flow_direction_d8 rows cols dem i j
        ∧ validNb rows cols dem i j nb
        ∧ (∀ x ∈ neighborList, validNb rows cols dem i j x →
            nbSlope dem i j c x ≤ nbSlope dem i j c nb)
        ∧ (∀ x ∈ l₁, validNb rows cols dem i j x →
            nbSlope dem i j c x < nbSlope dem i j c nb) := by
  have hint := d8_nonzero_interior rows cols dem i j hnz
  cases hdem : dem i j with
  | none =>
    exfalso
    apply hnz
    simp only [calculate_flow_direction_d8]
    rw [if_pos hint, hdem]
  | some c =>
    have hkey : calculate_flow_direction_d8 rows cols dem i j
        = d8Cell rows cols dem i j c := by
      simp only [calculate_flow_direction_d8]
      rw [if_pos hint, hdem]
    have hwAll : ∀ x ∈ neighborList, 0 < wNat x := by decide
    have hg := @d8Fold_good rows cols dem i j c neighborList []
      ((none, 0) : Option (ℚ × ℕ) × ℕ)
      hwAll (fun x hx => absurd hx (List.not_mem_nil x))
      (Or.inl ⟨rfl, fun x hx => absurd hx (List.not_mem_nil x)⟩)
    rw [List.nil_append] at hg
    rcases hg with ⟨hst, _⟩ | ⟨l₁, nb, l₂, hdec, hv, hst, hstrict, hle⟩
    · exfalso
      apply hnz
      rw [hkey]
      unfold d8Cell
      rw [hst]
    · refine ⟨c, rfl, l₁, nb, l₂, hdec, ?_, hv, hle, hstrict⟩
      rw [hkey]
      unfold d8Cell
      rw [hst]

/-- The flat elevation field: every cell at elevation 0. -/
def flatDem : ℕ → ℕ → Option ℚ := fun _ _ => some 0

/-- Witness for C5 at the flat 3×3 grid, whose interior cell gets code 128. -/
theorem C5_steepest_descent_tiebreak_witness :
    ∃ c, flatDem 1 1 = some c ∧
      ∃ l₁ nb l₂, neighborList = l₁ ++ nb :: l₂
        ∧ nb.2.2 = calculate_flow_direction_d8 3 3 flatDem 1 1
        ∧ validNb 3 3 flatDem 1 1 nb
        ∧ (∀ x ∈ neighborList, validNb 3 3 flatDem 1 1 x →
            nbSlope flatDem 1 1 c x ≤ nbSlope flatDem 1 1 c nb)
        ∧ (∀ x ∈ l₁, validNb 3 3 flatDem 1 1 x →
            nbSlope flatDem 1 1 c x < nbSlope flatDem 1 1 c nb) :=
  C5_steepest_descent_tiebreak 3 3 flatDem 1 1 (by
    have h : calculate_flow_direction_d8 3 3 flatDem 1 1 = 128 := by
      norm_num [flatDem, calculate_flow_direction_d8, d8Cell, neighborList,
        d8Step, sgtOpt, sgtB, wNat]
    rw [h]
    norm_num)

/-- Witness for C10 at the flat 3×3 grid. -/
theorem C10_direction_field_wellformed_witness :
    (∀ i j, (i = 0 ∨ i = 3 - 1 ∨ j = 0 ∨ j = 3 - 1) →
        calculate_flow_direction_d8 3 3 flatDem i j = 0)
    ∧ (∀ i j, calculate_flow_direction_d8 3 3 flatDem i j
        ∈ ([0, 1, 2, 4, 8, 16, 32, 64, 128] : List ℕ))
    ∧ (∀ i j, calculate_flow_direction_d8 3 3 flatDem i j ≠ 0 →
        (1 ≤ i ∧ i < 3 - 1 ∧ 1 ≤ j ∧ j < 3 - 1)
        ∧ ∃ dd : ℤ × ℤ,
            dirToOffset (calculate_flow_direction_d8 3 3 flatDem i j)
              = some dd
            ∧ 0 ≤ (i : ℤ) + dd.1 ∧ (i : ℤ) + dd.1 < (3 : ℤ)
            ∧ 0 ≤ (j : ℤ) + dd.2 ∧ (j : ℤ) + dd.2 < (3 : ℤ)) :=
  C10_direction_field_wellformed 3 3 flatDem

/-- C1 (code bug): on the flat 3×3 grid of all-equal elevations, the single
interior cell receives direction code 128 (NE), not 0: the first enumerated
neighbor's slope 0 beats the `-inf` sentinel, so `flow_direction` is
overwritten even though no neighbor is strictly lower — contradicting the
function's own docstring, by which 0 marks a sink/flat cell. -/
theorem C1_flat_cell_gets_128 :
    calculate_flow_direction_d8 3 3 flatDem 1 1 = 128 := by
  norm_num [flatDem, calculate_flow_direction_d8, d8Cell, neighborList,
    d8Step, sgtOpt, sgtB, wNat]

/-! ## Claims C6, C7, C8 -/

/-- C6 (code bug): the normalization step divides by the bounding-box width
and height unconditionally — there is no zero-width/zero-height guard and no
error path at all in the code.  On a degenerate box the division is
ill-defined (Python raises `ZeroDivisionError` for plain floats or
propagates inf/NaN for numpy scalars; the rational model returns the junk
value 0), and distinct input points collapse to the same junk coordinate
instead of a configuration error being reported. -/
theorem C6_no_degenerate_box_guard :
    norm_x ⟨0, 0, 0, 10⟩ 5 = 0 ∧ norm_x ⟨0, 0, 0, 10⟩ 7 = 0
    ∧ norm_y ⟨0, 0, 10, 0⟩ 3 = 1 := by
  norm_num [norm_x, norm_y]

/-- C8: the normalization maps `x` to `(x-minx)/(maxx-minx)` and `y` to
`1-(y-miny)/(maxy-miny)`; on a nondegenerate box every in-box point lands in
`[0,1]×[0,1]`, the bottom-left corner maps to `(0,1)` and the top-right
corner to `(1,0)` (vertical flip). -/
theorem C8_normalization_bounds (b : Bounds) (x y : ℚ)
    (hwx : b.minx < b.maxx) (hwy : b.miny < b.maxy)
    (hx1 : b.minx ≤ x) (hx2 : x ≤ b.maxx)
    (hy1 : b.miny ≤ y) (hy2 : y ≤ b.maxy) :
    (0 ≤ norm_x b x ∧ norm_x b x ≤ 1)
    ∧ (0 ≤ norm_y b y ∧ norm_y b y ≤ 1)
    ∧ norm_x b b.minx = 0 ∧ norm_y b b.miny = 1
    ∧ norm_x b b.maxx = 1 ∧ norm_y b b.maxy = 0 := by
  have hwx' : 0 < b.maxx - b.minx := by linarith
  have hwy' : 0 < b.maxy - b.miny := by linarith
  unfold norm_x norm_y
  refine ⟨⟨div_nonneg (by linarith) hwx'.le, ?_⟩, ⟨?_, ?_⟩, ?_, ?_, ?_, ?_⟩
  · rw [div_le_one hwx']
    linarith
  · have h := div_le_one_of_le₀ (by linarith : y - b.miny ≤ b.maxy - b.miny)
      hwy'.le
    linarith
  · have h := div_nonneg (by linarith : (0 : ℚ) ≤ y - b.miny) hwy'.le
    linarith
  · simp
  · simp
  · rw [div_self hwx'.ne']
  · rw [div_self hwy'.ne']
    ring

/-- Witness for C8 at a concrete box and interior point. -/
theorem C8_normalization_bounds_witness :
    (0 ≤ norm_x ⟨0, 0, 2, 3⟩ 1 ∧ norm_x ⟨0, 0, 2, 3⟩ 1 ≤ 1)
    ∧ (0 ≤ norm_y ⟨0, 0, 2, 3⟩ 1 ∧ norm_y ⟨0, 0, 2, 3⟩ 1 ≤ 1)
    ∧ norm_x ⟨0, 0, 2, 3⟩ (Bounds.mk 0 0 2 3).minx = 0
    ∧ norm_y ⟨0, 0, 2, 3⟩ (Bounds.mk 0 0 2 3).miny = 1
    ∧ norm_x ⟨0, 0, 2, 3⟩ (Bounds.mk 0 0 2 3).maxx = 1
    ∧ norm_y ⟨0, 0, 2, 3⟩ (Bounds.mk 0 0 2 3).maxy = 0 :=
  C8_normalization_bounds ⟨0, 0, 2, 3⟩ 1 1 (by norm_num) (by norm_num)
    (by norm_num) (by norm_num) (by norm_num) (by norm_num)

/-- C7 counterexample: on `[0,1,2,3,4]` with `max_count = 4` the code's
`dtype=int` truncation keeps index 2 (from 8/3 ≈ 2.67) where
nearest-integer rounding would keep index 3: the returned sample differs
from the claim's rounded-to-nearest description. -/
theorem C7_truncation_not_nearest :
    sample_evenly [0, 1, 2, 3, 4] 4 = [0, 1, 2, 4]
    ∧ sample_evenly_nearest [0, 1, 2, 3, 4] 4 = [0, 1, 3, 4]
    ∧ sample_evenly [0, 1, 2, 3, 4] 4
        ≠ sample_evenly_nearest [0, 1, 2, 3, 4] 4 := by
  refine ⟨by decide, by decide, by decide⟩

theorem filterMap_length_all_some {α β : Type} (f : α → Option β) :
    ∀ l : List α, (∀ a ∈ l, f a ≠ none) → (l.filterMap f).length = l.length
  | [], _ => rfl
  | a :: l, h => by
    cases hfa : f a with
    | none => exact absurd hfa (h a (List.mem_cons_self _ _))
    | some b =>
      rw [List.filterMap_cons_some hfa]
      rw [List.length_cons, List.length_cons]
      rw [filterMap_length_all_some f l (fun x hx => h x (List.mem_cons_of_mem _ hx))]

theorem linspace_index_strictMono {s d : ℕ} (hd : 0 < d) (hds : d ≤ s)
    {a b : ℕ} (h : a < b) : a * s / d < b * s / d := by
  have h1 : a * s + d ≤ (a + 1) * s := by nlinarith
  calc a * s / d < a * s / d + 1 := Nat.lt_succ_self _
    _ = (a * s + d) / d := (Nat.add_div_right _ hd).symm
    _ ≤ ((a + 1) * s) / d := Nat.div_le_div_right h1
    _ ≤ b * s / d := Nat.div_le_div_right (Nat.mul_le_mul_right _ h)

theorem linspace_index_lt {n k : ℕ} (hk : 2 ≤ k) (hkn : k < n) (t : ℕ)
    (ht : t < k) : t * (n - 1) / (k - 1) < n := by
  have h1 : t * (n - 1) ≤ (k - 1) * (n - 1) :=
    Nat.mul_le_mul_right _ (by omega)
  have h2 : t * (n - 1) / (k - 1) ≤ (k - 1) * (n - 1) / (k - 1) :=
    Nat.div_le_div_right h1
  rw [Nat.mul_div_cancel_left _ (by omega : 0 < k - 1)] at h2
  omega

/-- C7 (amended): `sample_evenly` returns `items` unchanged when
`len(items) ≤ max_count`, and its output length is always
`min(len(items), max_count)`.  For `2 ≤ max_count < len(items)` it returns
the items at the `np.linspace(0, len-1, max_count, dtype=int)` indices
`t*(len-1)/(max_count-1)` — evenly spaced indices TRUNCATED (floored) to
integers, not rounded to nearest — which are strictly increasing (so the
original relative order is preserved) and include both the first and the
last element.  (For `max_count = 1` the sample is just the first element.) -/
theorem C7_sample_evenly_amended {α : Type} (items : List α) (k : ℕ) :
    (items.length ≤ k → sample_evenly items k = items)
    ∧ (sample_evenly items k).length = min items.length k
    ∧ (2 ≤ k → k < items.length →
        sample_evenly items k
            = (List.range k).filterMap
                (fun t => items.get? (t * (items.length - 1) / (k - 1)))
          ∧ (sample_evenly items k).head? = items.head?
          ∧ (sample_evenly items k).getLast? = items.getLast?
          ∧ ((List.range k).map
              (fun t => t * (items.length - 1) / (k - 1))).Pairwise (· < ·)) := by
  by_cases hle : items.length ≤ k
  · have hs : sample_evenly items k = items := by
      unfold sample_evenly
      rw [if_pos hle]
    refine ⟨fun _ => hs, ?_, fun _ hkn => absurd hkn (by omega)⟩
    rw [hs, min_eq_left hle]
  · have hlt : k < items.length := by omega
    have hs : sample_evenly items k
        = (linspaceInt (items.length - 1) k).filterMap
            fun idx => items.get? idx := by
      unfold sample_evenly
      rw [if_neg hle]
    have heqn : 2 ≤ k → linspaceInt (items.length - 1) k
        = (List.range k).map (fun t => t * (items.length - 1) / (k - 1)) := by
      intro hk2
      unfold linspaceInt
      rw [if_neg (by omega), if_neg (by omega)]
    refine ⟨fun h => absurd h hle, ?_, fun hk2 hkn => ?_⟩
    · rcases Nat.lt_or_ge k 2 with hk2 | hk2
      · interval_cases k
        · rw [hs]
          unfold linspaceInt
          simp
        · have h0 : items.get? 0 ≠ none := fun hnone => by
            rw [List.get?_eq_none] at hnone
            omega
          obtain ⟨a, ha⟩ := Option.ne_none_iff_exists'.mp h0
          rw [hs]
          unfold linspaceInt
          rw [if_neg (by omega : ¬(1 = 0)), if_pos rfl]
          rw [@List.filterMap_cons_some ℕ α (fun idx => items.get? idx) 0 [] a ha]
          simp
          omega
      · have hv : ∀ t ∈ List.range k,
            ((fun idx => items.get? idx)
              ∘ (fun t => t * (items.length - 1) / (k - 1))) t ≠ none := by
          intro t ht hnone
          simp only [Function.comp] at hnone
          rw [List.get?_eq_none] at hnone
          have := linspace_index_lt hk2 hlt t (List.mem_range.mp ht)
          omega
        rw [hs, heqn hk2, List.filterMap_map,
          filterMap_length_all_some _ _ hv, List.length_range]
        omega
    · have heq3 : sample_evenly items k
          = (List.range k).filterMap
              (fun t => items.get? (t * (items.length - 1) / (k - 1))) := by
        rw [hs, heqn hk2, List.filterMap_map]
        rfl
      obtain ⟨k2, rfl⟩ : ∃ k2, k = k2 + 2 := ⟨k - 2, by omega⟩
      have h0 : items.get? 0 ≠ none := fun hnone => by
        rw [List.get?_eq_none] at hnone
        omega
      obtain ⟨a, ha⟩ := Option.ne_none_iff_exists'.mp h0
      have hnlast : items.get? (items.length - 1) ≠ none := fun hnone => by
        rw [List.get?_eq_none] at hnone
        omega
      obtain ⟨z, hz⟩ := Option.ne_none_iff_exists'.mp hnlast
      refine ⟨heq3, ?_, ?_, ?_⟩
      · have hf0 : (fun t => items.get?
            (t * (items.length - 1) / (k2 + 2 - 1))) 0 = some a := by
          show items.get? (0 * (items.length - 1) / (k2 + 2 - 1)) = some a
          rw [Nat.zero_mul, Nat.zero_div]
          exact ha
        rw [heq3, List.range_succ_eq_map,
          @List.filterMap_cons_some ℕ α
            (fun t => items.get? (t * (items.length - 1) / (k2 + 2 - 1)))
            0 (List.map Nat.succ (List.range (k2 + 1))) a hf0]
        rw [List.head?_cons, ← List.get?_zero]
        exact ha.symm
      · have hfl : (fun t => items.get?
            (t * (items.length - 1) / (k2 + 2 - 1))) (k2 + 1) = some z := by
          show items.get? ((k2 + 1) * (items.length - 1) / (k2 + 2 - 1)) = some z
          rw [show k2 + 2 - 1 = k2 + 1 from rfl,
            Nat.mul_div_cancel_left _ (by omega : 0 < k2 + 1)]
          exact hz
        rw [heq3, List.range_succ, List.filterMap_append]
        rw [show List.filterMap (fun t => items.get?
            (t * (items.length - 1) / (k2 + 2 - 1))) [k2 + 1] = [z] from by
          rw [@List.filterMap_cons_some ℕ α
            (fun t => items.get? (t * (items.length - 1) / (k2 + 2 - 1)))
            (k2 + 1) [] z hfl]
          rfl]
        rw [List.getLast?_concat, List.getLast?_eq_get?]
        exact hz.symm
      · rw [List.pairwise_map]
        exact (List.pairwise_lt_range _).imp
          (fun hab => linspace_index_strictMono (by omega) (by omega) hab)

/-- Witness for the amended C7 at a concrete list. -/
theorem C7_sample_evenly_amended_witness :
    (([0, 1, 2, 3, 4] : List ℕ).length ≤ 4 →
        sample_evenly [0, 1, 2, 3, 4] 4 = [0, 1, 2, 3, 4])
    ∧ (sample_evenly ([0, 1, 2, 3, 4] : List ℕ) 4).length
        = min ([0, 1, 2, 3, 4] : List ℕ).length 4
    ∧ (2 ≤ 4 → 4 < ([0, 1, 2, 3, 4] : List ℕ).length →
        sample_evenly ([0, 1, 2, 3, 4] : List ℕ) 4
            = (List.range 4).filterMap
                (fun t => ([0, 1, 2, 3, 4] : List ℕ).get?
                  (t * (([0, 1, 2, 3, 4] : List ℕ).length - 1) / (4 - 1)))
          ∧ (sample_evenly ([0, 1, 2, 3, 4] : List ℕ) 4).head?
              = ([0, 1, 2, 3, 4] : List ℕ).head?
          ∧ (sample_evenly ([0, 1, 2, 3, 4] : List ℕ) 4).getLast?
              = ([0, 1, 2, 3, 4] : List ℕ).getLast?
          ∧ ((List.range 4).map
              (fun t => t * (([0, 1, 2, 3, 4] : List ℕ).length - 1) / (4 - 1))).Pairwise
                (· < ·)) :=
  C7_sample_evenly_amended [0, 1, 2, 3, 4] 4

/-! ## Claim C9 -/

/-- The per-cell emission of `extract_flow_vectors` as an `Option`:
`extractCellStep out ij = out ++ (extractCellF ij).toList`. -/
def extractCellF (rows cols : ℕ) (fd : ℕ → ℕ → ℕ) (fa : ℕ → ℕ → ℚ)
    (t : Affine) (threshold : ℚ) (ij : ℕ × ℕ) : Option FlowVector :=
  if fd ij.1 ij.2 = 0 ∨ fa ij.1 ij.2 < threshold then none
  else
    match dirToOffset (fd ij.1 ij.2) with
    | none => none
    | some dd =>
      let ni : ℤ := (ij.1 : ℤ) + dd.1
      let nj : ℤ := (ij.2 : ℤ) + dd.2
      if 0 ≤ ni ∧ ni < (rows : ℤ) ∧ 0 ≤ nj ∧ nj < (cols : ℤ) then
        some ⟨(rio_xy t ij.1 ij.2).1, (rio_xy t ij.1 ij.2).2,
          (rio_xy t ni.toNat nj.toNat).1, (rio_xy t ni.toNat nj.toNat).2,
          fa ij.1 ij.2, fd ij.1 ij.2⟩
      else none

theorem extractCellStep_eq (rows cols : ℕ) (fd : ℕ → ℕ → ℕ)
    (fa : ℕ → ℕ → ℚ) (t : Affine) (threshold : ℚ) (out : List FlowVector)
    (ij : ℕ × ℕ) :
    extractCellStep rows cols fd fa t threshold out ij
      = out ++ (extractCellF rows cols fd fa t threshold ij).toList := by
  unfold extractCellStep extractCellF
  dsimp only
  split
  · simp
  split
  · simp
  split
  · rfl
  · simp

theorem extractFold_filterMap (rows cols : ℕ) (fd : ℕ → ℕ → ℕ)
    (fa : ℕ → ℕ → ℚ) (t : Affine) (threshold : ℚ) :
    ∀ (l : List (ℕ × ℕ)) (out : List FlowVector),
      l.foldl (extractCellStep rows cols fd fa t threshold) out
        = out ++ l.filterMap (extractCellF rows cols fd fa t threshold)
  | [], out => by simp
  | ij :: l, out => by
    rw [List.foldl_cons,
      extractFold_filterMap rows cols fd fa t threshold l _,
      extractCellStep_eq]
    cases hF : extractCellF rows cols fd fa t threshold ij with
    | none => simp [List.filterMap_cons, hF]
    | some v => simp [List.filterMap_cons, hF]

/-- Modelled from the spec: the emission rule as the claim words it — one
vector per cell with non-zero direction code and accumulation at least the
threshold, mapping the cell and its downstream neighbor per the direction
code through the affine transform, with no bounds check (the claim's
hypothesis guarantees the downstream neighbor exists in bounds). -/
def specFlowVec (fd : ℕ → ℕ → ℕ) (fa : ℕ → ℕ → ℚ) (t : Affine)
    (threshold : ℚ) (ij : ℕ × ℕ) : Option FlowVector :=
  if fd ij.1 ij.2 ≠ 0 ∧ threshold ≤ fa ij.1 ij.2 then
    match dirToOffset (fd ij.1 ij.2) with
    | none => none
    | some dd =>
      some ⟨(rio_xy t ij.1 ij.2).1, (rio_xy t ij.1 ij.2).2,
        (rio_xy t ((ij.1 : ℤ) + dd.1).toNat ((ij.2 : ℤ) + dd.2).toNat).1,
        (rio_xy t ((ij.1 : ℤ) + dd.1).toNat ((ij.2 : ℤ) + dd.2).toNat).2,
        fa ij.1 ij.2, fd ij.1 ij.2⟩
  else none

theorem length_filterMap_eq_length_filter {α β : Type} (f : α → Option β) :
    ∀ l : List α,
      (l.filterMap f).length = (l.filter (fun a => (f a).isSome)).length
  | [] => rfl
  | a :: l => by
    cases hF : f a with
    | none =>
      rw [List.filterMap_cons, hF, List.filter_cons]
      simp only [hF, Option.isSome_none, Bool.false_eq_true, if_false]
      exact length_filterMap_eq_length_filter f l
    | some b =>
      rw [List.filterMap_cons, hF, List.filter_cons]
      simp only [hF, Option.isSome_some, if_true]
      rw [List.length_cons, List.length_cons,
        length_filterMap_eq_length_filter f l]

theorem filterMap_congr_mem {α β : Type} (f g : α → Option β) :
    ∀ l : List α, (∀ a ∈ l, f a = g a) → l.filterMap f = l.filterMap g
  | [], _ => rfl
  | a :: l, h => by
    rw [List.filterMap_cons, List.filterMap_cons, h a (List.mem_cons_self _ _),
      filterMap_congr_mem f g l (fun x hx => h x (List.mem_cons_of_mem _ hx))]

theorem filter_congr_mem {α : Type} (p q : α → Bool) :
    ∀ l : List α, (∀ a ∈ l, p a = q a) → l.filter p = l.filter q
  | [], _ => rfl
  | a :: l, h => by
    rw [List.filter_cons, List.filter_cons, h a (List.mem_cons_self _ _),
      filter_congr_mem p q l (fun x hx => h x (List.mem_cons_of_mem _ hx))]

/-- C9: on every direction field whose non-zero cells all have an in-bounds
downstream neighbor (which every field produced by the resolver satisfies),
`extract_flow_vectors` emits exactly one flow vector per cell whose
direction code is non-zero and whose accumulation is at least the
threshold — `from` the cell's affine coordinates, `to` the downstream
neighbor's, weight the cell's accumulation, direction the cell's code — and
emits nothing for any other cell.  Both inputs are read through the pure
functional embedding, so no field is mutated by construction. -/
theorem C9_extract_flow_vectors_spec (rows cols : ℕ) (fd : ℕ → ℕ → ℕ)
    (fa : ℕ → ℕ → ℚ) (t : Affine) (threshold : ℚ)
    (H : ∀ i j, i < rows → j < cols → fd i j ≠ 0 →
      ∃ dd : ℤ × ℤ, dirToOffset (fd i j) = some dd
        ∧ 0 ≤ (i : ℤ) + dd.1 ∧ (i : ℤ) + dd.1 < (rows : ℤ)
        ∧ 0 ≤ (j : ℤ) + dd.2 ∧ (j : ℤ) + dd.2 < (cols : ℤ)) :
    extract_flow_vectors rows cols fd fa t threshold
      = (cellList rows cols).filterMap (specFlowVec fd fa t threshold)
    ∧ (extract_flow_vectors rows cols fd fa t threshold).length
      = ((cellList rows cols).filter
          (fun ij => decide (fd ij.1 ij.2 ≠ 0)
            && decide (threshold ≤ fa ij.1 ij.2))).length := by
  have hcell : ∀ ij ∈ cellList rows cols,
      extractCellF rows cols fd fa t threshold ij
        = specFlowVec fd fa t threshold ij := by
    intro ij hij
    obtain ⟨hi, hj⟩ := (mem_cellList ij).mp hij
    by_cases hz : fd ij.1 ij.2 = 0
    · unfold extractCellF specFlowVec
      rw [if_pos (Or.inl hz), if_neg (by simp [hz])]
    · by_cases hth : fa ij.1 ij.2 < threshold
      · unfold extractCellF specFlowVec
        rw [if_pos (Or.inr hth), if_neg (by simp [not_le.mpr hth])]
      · obtain ⟨dd, hdd, hb1, hb2, hb3, hb4⟩ := H ij.1 ij.2 hi hj hz
        unfold extractCellF specFlowVec
        rw [if_neg (by simp [hz, hth]), if_pos ⟨hz, not_lt.mp hth⟩, hdd]
        dsimp only
        rw [if_pos ⟨hb1, hb2, hb3, hb4⟩]
  have hsome : ∀ ij ∈ cellList rows cols,
      (specFlowVec fd fa t threshold ij).isSome
        = (decide (fd ij.1 ij.2 ≠ 0) && decide (threshold ≤ fa ij.1 ij.2)) := by
    intro ij hij
    obtain ⟨hi, hj⟩ := (mem_cellList ij).mp hij
    by_cases hz : fd ij.1 ij.2 = 0
    · unfold specFlowVec
      rw [if_neg (by simp [hz])]
      simp [hz]
    · by_cases hth : threshold ≤ fa ij.1 ij.2
      · obtain ⟨dd, hdd, _, _, _, _⟩ := H ij.1 ij.2 hi hj hz
        unfold specFlowVec
        rw [if_pos ⟨hz, hth⟩, hdd]
        simp [hz, hth]
      · unfold specFlowVec
        rw [if_neg (by simp [hth])]
        simp [hth]
  have hmain : extract_flow_vectors rows cols fd fa t threshold
      = (cellList rows cols).filterMap (specFlowVec fd fa t threshold) := by
    unfold extract_flow_vectors
    rw [extractFold_filterMap, List.nil_append]
    exact filterMap_congr_mem _ _ _ hcell
  refine ⟨hmain, ?_⟩
  rw [hmain, length_filterMap_eq_length_filter]
  rw [filter_congr_mem _ _ _ hsome]

/-- A 3×3 direction field with a single SE-draining center cell. -/
def c9Fd : ℕ → ℕ → ℕ := fun i j => if i = 1 ∧ j = 1 then 2 else 0

/-- Witness for C9 at a concrete 3×3 field. -/
theorem C9_extract_flow_vectors_spec_witness :
    extract_flow_vectors 3 3 c9Fd (fun _ _ => 5) ⟨1, 0, 0, 0, 1, 0⟩ 1
      = (cellList 3 3).filterMap
          (specFlowVec c9Fd (fun _ _ => 5) ⟨1, 0, 0, 0, 1, 0⟩ 1)
    ∧ (extract_flow_vectors 3 3 c9Fd (fun _ _ => 5) ⟨1, 0, 0, 0, 1, 0⟩ 1).length
      = ((cellList 3 3).filter
          (fun ij => decide (c9Fd ij.1 ij.2 ≠ 0)
            && decide ((1 : ℚ) ≤ (5 : ℚ)))).length :=
  C9_extract_flow_vectors_spec 3 3 c9Fd (fun _ _ => 5) ⟨1, 0, 0, 0, 1, 0⟩ 1 (by
    intro i j hi hj hnz
    have hij : i = 1 ∧ j = 1 := by
      by_contra hc
      apply hnz
      unfold c9Fd
      rw [if_neg hc]
    obtain ⟨rfl, rfl⟩ := hij
    exact ⟨(1, 1), by decide, by decide, by decide, by decide, by decide⟩)
